import Mathlib

/-!
Verification of a Left-Leaning Red-Black (LLRB) tree implementation.

The development shallowly embeds the tree data model and its operations:
items are opaque payloads extended with two infinity sentinels, nodes carry
a payload, two children and a color bit for the incoming link, and every
operation that can panic in the original is modelled as `Except String`
(an `.error` result marks a panic / fatal abort).
-/

set_option maxHeartbeats 1000000

namespace LLRBTree

/-- An item: a real payload of type `α`, or one of the two sentinel bounds. -/
inductive Item (α : Type) where
  | ninf : Item α
  | pinf : Item α
  | item : α → Item α
deriving DecidableEq, Repr

/-- A tree node: payload, left and right children, and the color bit of the
incoming link (`black = true` means the link from the parent is black).
`nil` is the empty link. -/
inductive Node (α : Type) where
  | nil : Node α
  | node : Item α → Node α → Node α → Bool → Node α
deriving DecidableEq, Repr

variable {α : Type}

/-- `less comp x y`: the comparison used everywhere; sentinels are decided
before the injected comparator is consulted. -/
def less (comp : α → α → Bool) : Item α → Item α → Bool
  | .pinf, _ => false
  | _, .ninf => false
  | .ninf, _ => true
  | _, .pinf => true
  | .item a, .item b => comp a b

/-- `Inf sign` builds a sentinel bound; a zero sign is a caller error (panic). -/
def Inf (sign : Int) : Except String (Item α) :=
  if sign = 0 then .error "sign"
  else if sign > 0 then .ok .pinf
  else .ok .ninf

/-- A freshly allocated node: red, no children. -/
def newNode (x : Item α) : Node α := .node x .nil .nil false

/-- Link color query; an empty link is black. -/
def isRed : Node α → Bool
  | .nil => false
  | .node _ _ _ b => !b

def Node.left : Node α → Node α
  | .nil => .nil
  | .node _ l _ _ => l

def Node.right : Node α → Node α
  | .nil => .nil
  | .node _ _ r _ => r

def Node.size : Node α → Nat
  | .nil => 0
  | .node _ l r _ => l.size + r.size + 1

def Node.isNil : Node α → Bool
  | .nil => true
  | .node _ _ _ _ => false

/-- In-order traversal of the stored items. -/
def inorder : Node α → List (Item α)
  | .nil => []
  | .node i l r _ => inorder l ++ i :: inorder r

/-- Rotate left; requires the right child to exist and be red, else panic. -/
def rotateLeft : Node α → Except String (Node α)
  | .node i l (.node ri rl rr false) b => .ok (.node ri (.node i l rl false) rr b)
  | .node _ _ (.node _ _ _ true) _ => .error "rotating a black link"
  | _ => .error "nil node"

/-- Rotate right; requires the left child to exist and be red, else panic. -/
def rotateRight : Node α → Except String (Node α)
  | .node i (.node li ll lr false) r b => .ok (.node li ll (.node i lr r false) b)
  | .node _ (.node _ _ _ true) _ _ => .error "rotating a black link"
  | _ => .error "nil node"

/-- Flip the colors of a node and both of its children; missing children
are a fatal abort in the original. -/
def flip : Node α → Except String (Node α)
  | .node i (.node li ll lr lb) (.node ri rl rr rb) b =>
      .ok (.node i (.node li ll lr (!lb)) (.node ri rl rr (!rb)) (!b))
  | _ => .error "nil node"

/-- The insertion fix-up pass (`walkUpRot23` in the source): rotate left when
the right link is red and the left is not, rotate right on two reds down the
left spine, flip when both children are red. -/
def walkUpRot23 : Node α → Except String (Node α)
  | .nil => .error "nil node"
  | h =>
    match (if isRed h.right && !isRed h.left then rotateLeft h else .ok h) with
    | .error e => .error e
    | .ok h₁ =>
      match (if isRed h₁.left && isRed h₁.left.left then rotateRight h₁ else .ok h₁) with
      | .error e => .error e
      | .ok h₂ => if isRed h₂.left && isRed h₂.right then flip h₂ else .ok h₂

/-- The descent transformation for the 2-3 algorithm: the identity. -/
def walkDownRot23 (h : Node α) : Node α := h

/-- The deletion fix-up pass: rotate left when the right link is red
(unconditionally on the left), rotate right on two reds down the left
spine, flip when both children are red. -/
def fixUp : Node α → Except String (Node α)
  | .nil => .error "nil node"
  | h =>
    match (if isRed h.right then rotateLeft h else .ok h) with
    | .error e => .error e
    | .ok h₁ =>
      match (if isRed h₁.left && isRed h₁.left.left then rotateRight h₁ else .ok h₁) with
      | .error e => .error e
      | .ok h₂ => if isRed h₂.left && isRed h₂.right then flip h₂ else .ok h₂

/-- `moveRedLeft`: borrow redness for the left subtree before descending. -/
def moveRedLeft (h : Node α) : Except String (Node α) :=
  match flip h with
  | .error e => .error e
  | .ok h₁ =>
    if isRed h₁.right.left then
      match rotateRight h₁.right with
      | .error e => .error e
      | .ok r' =>
        match h₁ with
        | .nil => .error "nil node"
        | .node i l _ b =>
          match rotateLeft (.node i l r' b) with
          | .error e => .error e
          | .ok h₂ => flip h₂
    else .ok h₁

/-- `moveRedRight`: borrow redness for the right subtree before descending. -/
def moveRedRight (h : Node α) : Except String (Node α) :=
  match flip h with
  | .error e => .error e
  | .ok h₁ =>
    if isRed h₁.left.left then
      match rotateRight h₁ with
      | .error e => .error e
      | .ok h₂ => flip h₂
    else .ok h₁

theorem rotateLeft_size {h h' : Node α} (H : rotateLeft h = .ok h') :
    h'.size = h.size := by
  unfold rotateLeft at H
  split at H
  · rw [Except.ok.injEq] at H; subst H; simp [Node.size]; omega
  · simp at H
  · simp at H

theorem rotateRight_size {h h' : Node α} (H : rotateRight h = .ok h') :
    h'.size = h.size := by
  unfold rotateRight at H
  split at H
  · rw [Except.ok.injEq] at H; subst H; simp [Node.size]; omega
  · simp at H
  · simp at H

theorem flip_size {h h' : Node α} (H : flip h = .ok h') : h'.size = h.size := by
  unfold flip at H
  split at H
  · rw [Except.ok.injEq] at H; subst H; simp [Node.size]
  · simp at H

theorem stepRL_size {c : Bool} {X h₁ : Node α}
    (H : (if c then rotateLeft X else .ok X) = .ok h₁) : h₁.size = X.size := by
  split at H
  · exact rotateLeft_size H
  · rw [Except.ok.injEq] at H; subst H; rfl

theorem stepRR_size {c : Bool} {X h₁ : Node α}
    (H : (if c then rotateRight X else .ok X) = .ok h₁) : h₁.size = X.size := by
  split at H
  · exact rotateRight_size H
  · rw [Except.ok.injEq] at H; subst H; rfl

theorem stepFlip_size {c : Bool} {X h₁ : Node α}
    (H : (if c then flip X else .ok X) = .ok h₁) : h₁.size = X.size := by
  split at H
  · exact flip_size H
  · rw [Except.ok.injEq] at H; subst H; rfl

theorem moveRedLeft_size {h h' : Node α} (H : moveRedLeft h = .ok h') :
    h'.size = h.size := by
  unfold moveRedLeft at H
  split at H
  · simp at H
  next h₁ heq =>
    have e1 := flip_size heq
    split at H
    · split at H
      · simp at H
      next r' heqr =>
        have e2 := rotateRight_size heqr
        split at H
        · simp at H
        next a i l b =>
          split at H
          · simp at H
          next h₂ heq₂ =>
            have e3 := rotateLeft_size heq₂
            have e4 := flip_size H
            simp [Node.size, Node.right] at e1 e2 e3 ⊢
            omega
    · rw [Except.ok.injEq] at H; subst H; exact e1

theorem moveRedRight_size {h h' : Node α} (H : moveRedRight h = .ok h') :
    h'.size = h.size := by
  unfold moveRedRight at H
  split at H
  · simp at H
  next h₁ heq =>
    have e1 := flip_size heq
    split at H
    · split at H
      · simp at H
      next h₂ heq₂ =>
        have e2 := rotateRight_size heq₂
        have e3 := flip_size H
        omega
    · rw [Except.ok.injEq] at H; subst H; exact e1

theorem fixUp_size {h h' : Node α} (H : fixUp h = .ok h') : h'.size = h.size := by
  cases h with
  | nil => simp [fixUp] at H
  | node i l r b =>
    simp only [fixUp] at H
    split at H
    · simp at H
    next h₁ heq₁ =>
      split at H
      · simp at H
      next h₂ heq₂ =>
        have e1 := stepRL_size heq₁
        have e2 := stepRR_size heq₂
        have e3 := stepFlip_size H
        omega

theorem walkUpRot23_size {h h' : Node α} (H : walkUpRot23 h = .ok h') :
    h'.size = h.size := by
  cases h with
  | nil => simp [walkUpRot23] at H
  | node i l r b =>
    simp only [walkUpRot23] at H
    split at H
    · simp at H
    next h₁ heq₁ =>
      split at H
      · simp at H
      next h₂ heq₂ =>
        have e1 := stepRL_size heq₁
        have e2 := stepRR_size heq₂
        have e3 := stepFlip_size H
        omega

/-- The guarded `moveRedLeft` step performed before descending left. -/
def mrlStep (h : Node α) : Except String (Node α) :=
  if !isRed h.left && !isRed h.left.left then moveRedLeft h else .ok h

theorem mrlStep_size {h h' : Node α} (H : mrlStep h = .ok h') : h'.size = h.size := by
  unfold mrlStep at H
  split at H
  · exact moveRedLeft_size H
  · cases H; rfl

/-- `deleteMin` on nodes. The original recurses into a child of the
rearranged node, which is not structural; the embedding carries an explicit
bound `fuel` on the recursion depth, consumed once per recursive call. The
entry point `deleteMinN` supplies the node count, which suffices because
every recursive call strictly decreases it (the rearrangements preserve
size); `deleteMinGas_congr` below shows any sufficient fuel computes the
same result. -/
def deleteMinGas : Nat → Node α → Except String (Node α × Option (Item α))
  | _, .nil => .ok (.nil, none)
  | 0, .node _ _ _ _ => .error "fuel"
  | fuel + 1, .node i l r b =>
    match l with
    | .nil => .ok (.nil, some i)
    | .node _ _ _ _ =>
      match mrlStep (.node i l r b) with
      | .error e => .error e
      | .ok .nil => .error "nil node"
      | .ok (.node i₂ l₂ r₂ b₂) =>
        match deleteMinGas fuel l₂ with
        | .error e => .error e
        | .ok (l₃, d) =>
          match fixUp (.node i₂ l₃ r₂ b₂) with
          | .error e => .error e
          | .ok h' => .ok (h', d)

/-- `deleteMin` on nodes: delete the leftmost item. -/
def deleteMinN (h : Node α) : Except String (Node α × Option (Item α)) :=
  deleteMinGas h.size h

theorem deleteMinGas_congr : ∀ (f₁ f₂ : Nat) (h : Node α),
    h.size ≤ f₁ → h.size ≤ f₂ → deleteMinGas f₁ h = deleteMinGas f₂ h := by
  intro f₁
  induction f₁ with
  | zero =>
    intro f₂ h h1 _
    cases h with
    | nil => cases f₂ <;> rfl
    | node i l r b => simp [Node.size] at h1
  | succ f ih =>
    intro f₂ h h1 h2
    cases h with
    | nil => cases f₂ <;> rfl
    | node i l r b =>
      cases f₂ with
      | zero => simp [Node.size] at h2
      | succ f₂ =>
        show deleteMinGas (f + 1) (.node i l r b) =
          deleteMinGas (f₂ + 1) (.node i l r b)
        cases l with
        | nil => rfl
        | node li ll lr lb =>
          simp only [deleteMinGas]
          cases hst : mrlStep (.node i (.node li ll lr lb) r b) with
          | error e => rfl
          | ok h₂ =>
            cases h₂ with
            | nil => rfl
            | node i₂ l₂ r₂ b₂ =>
              dsimp only
              have hs := mrlStep_size hst
              have : l₂.size ≤ f ∧ l₂.size ≤ f₂ := by
                simp [Node.size] at hs h1 h2 ⊢
                omega
              simp only [ih f₂ l₂ this.1 this.2]

/-- The guarded `moveRedRight` step performed before descending right. -/
def mrrStep (h : Node α) : Except String (Node α) :=
  if !isRed h.right && !isRed h.right.left then moveRedRight h else .ok h

theorem mrrStep_size {h h' : Node α} (H : mrrStep h = .ok h') : h'.size = h.size := by
  unfold mrrStep at H
  split at H
  · exact moveRedRight_size H
  · cases H; rfl

theorem stepMRR_size {c : Bool} {X Y : Node α}
    (H : (if c then moveRedRight X else .ok X) = .ok Y) : Y.size = X.size := by
  split at H
  · exact moveRedRight_size H
  · rw [Except.ok.injEq] at H; subst H; rfl

/-- `deleteMax` on nodes, with the same explicit recursion-depth bound as
`deleteMinGas`. -/
def deleteMaxGas : Nat → Node α → Except String (Node α × Option (Item α))
  | _, .nil => .ok (.nil, none)
  | 0, .node _ _ _ _ => .error "fuel"
  | fuel + 1, .node i l r b =>
    match (if isRed l then rotateRight (.node i l r b) else .ok (.node i l r b)) with
    | .error e => .error e
    | .ok .nil => .error "nil node"
    | .ok (.node i₁ l₁ r₁ b₁) =>
      match r₁ with
      | .nil => .ok (.nil, some i₁)
      | .node _ _ _ _ =>
        match mrrStep (.node i₁ l₁ r₁ b₁) with
        | .error e => .error e
        | .ok .nil => .error "nil node"
        | .ok (.node i₂ l₂ r₂ b₂) =>
          match deleteMaxGas fuel r₂ with
          | .error e => .error e
          | .ok (r₃, d) =>
            match fixUp (.node i₂ l₂ r₃ b₂) with
            | .error e => .error e
            | .ok h' => .ok (h', d)

/-- `deleteMax` on nodes: delete the rightmost item. -/
def deleteMaxN (h : Node α) : Except String (Node α × Option (Item α)) :=
  deleteMaxGas h.size h

theorem deleteMaxGas_congr : ∀ (f₁ f₂ : Nat) (h : Node α),
    h.size ≤ f₁ → h.size ≤ f₂ → deleteMaxGas f₁ h = deleteMaxGas f₂ h := by
  intro f₁
  induction f₁ with
  | zero =>
    intro f₂ h h1 _
    cases h with
    | nil => cases f₂ <;> rfl
    | node i l r b => simp [Node.size] at h1
  | succ f ih =>
    intro f₂ h h1 h2
    cases h with
    | nil => cases f₂ <;> rfl
    | node i l r b =>
      cases f₂ with
      | zero => simp [Node.size] at h2
      | succ f₂ =>
        show deleteMaxGas (f + 1) (.node i l r b) =
          deleteMaxGas (f₂ + 1) (.node i l r b)
        simp only [deleteMaxGas]
        cases hrot : (if isRed l then rotateRight (.node i l r b)
            else .ok (.node i l r b)) with
        | error e => rfl
        | ok h₁ =>
          have hs1 := stepRR_size hrot
          cases h₁ with
          | nil => rfl
          | node i₁ l₁ r₁ b₁ =>
            dsimp only
            cases r₁ with
            | nil => rfl
            | node ri rl rr rb =>
              dsimp only
              cases hst : mrrStep (.node i₁ l₁ (.node ri rl rr rb) b₁) with
              | error e => rfl
              | ok h₂ =>
                cases h₂ with
                | nil => rfl
                | node i₂ l₂ r₂ b₂ =>
                  dsimp only
                  have hs2 := mrrStep_size hst
                  have : r₂.size ≤ f ∧ r₂.size ≤ f₂ := by
                    simp [Node.size] at hs1 hs2 h1 h2 ⊢
                    omega
                  simp only [ih f₂ r₂ this.1 this.2]

/-- `delete` on nodes: delete one item whose key is equivalent to `k`,
again with the explicit recursion-depth bound. -/
def deleteGas (comp : α → α → Bool) :
    Nat → Node α → Item α → Except String (Node α × Option (Item α))
  | _, .nil, _ => .ok (.nil, none)
  | 0, .node _ _ _ _, _ => .error "fuel"
  | fuel + 1, .node i l r b, k =>
    if less comp k i then
      match l with
      | .nil => .ok (.node i l r b, none)
      | .node _ _ _ _ =>
        match mrlStep (.node i l r b) with
        | .error e => .error e
        | .ok .nil => .error "nil node"
        | .ok (.node i₂ l₂ r₂ b₂) =>
          match deleteGas comp fuel l₂ k with
          | .error e => .error e
          | .ok (l₃, d) =>
            match fixUp (.node i₂ l₃ r₂ b₂) with
            | .error e => .error e
            | .ok h' => .ok (h', d)
    else
      match (if isRed l then rotateRight (.node i l r b) else .ok (.node i l r b)) with
      | .error e => .error e
      | .ok .nil => .error "nil node"
      | .ok (.node i₁ l₁ r₁ b₁) =>
        if !less comp i₁ k && r₁.isNil then .ok (.nil, some i₁)
        else
          match (if !r₁.isNil && !isRed r₁ && !isRed r₁.left
                 then moveRedRight (.node i₁ l₁ r₁ b₁)
                 else .ok (.node i₁ l₁ r₁ b₁)) with
          | .error e => .error e
          | .ok .nil => .error "nil node"
          | .ok (.node i₂ l₂ r₂ b₂) =>
            if !less comp i₂ k then
              match deleteMinN r₂ with
              | .error e => .error e
              | .ok (_, none) => .error "logic"
              | .ok (r₃, some m) =>
                match fixUp (.node m l₂ r₃ b₂) with
                | .error e => .error e
                | .ok h' => .ok (h', some i₂)
            else
              match deleteGas comp fuel r₂ k with
              | .error e => .error e
              | .ok (r₃, d) =>
                match fixUp (.node i₂ l₂ r₃ b₂) with
                | .error e => .error e
                | .ok h' => .ok (h', d)

/-- `delete` on nodes: delete one item whose key is equivalent to `k`. -/
def deleteN (comp : α → α → Bool) (h : Node α) (k : Item α) :
    Except String (Node α × Option (Item α)) :=
  deleteGas comp h.size h k

theorem deleteGas_congr (comp : α → α → Bool) : ∀ (f₁ f₂ : Nat) (h : Node α)
    (k : Item α), h.size ≤ f₁ → h.size ≤ f₂ →
    deleteGas comp f₁ h k = deleteGas comp f₂ h k := by
  intro f₁
  induction f₁ with
  | zero =>
    intro f₂ h k h1 _
    cases h with
    | nil => cases f₂ <;> rfl
    | node i l r b => simp [Node.size] at h1
  | succ f ih =>
    intro f₂ h k h1 h2
    cases h with
    | nil => cases f₂ <;> rfl
    | node i l r b =>
      cases f₂ with
      | zero => simp [Node.size] at h2
      | succ f₂ =>
        show deleteGas comp (f + 1) (.node i l r b) k =
          deleteGas comp (f₂ + 1) (.node i l r b) k
        simp only [deleteGas]
        by_cases hk : less comp k i = true
        · rw [if_pos hk, if_pos hk]
          cases l with
          | nil => rfl
          | node li ll lr lb =>
            cases hst : mrlStep (.node i (.node li ll lr lb) r b) with
            | error e => rfl
            | ok h₂ =>
              cases h₂ with
              | nil => rfl
              | node i₂ l₂ r₂ b₂ =>
                dsimp only
                have hs := mrlStep_size hst
                have : l₂.size ≤ f ∧ l₂.size ≤ f₂ := by
                  simp [Node.size] at hs h1 h2 ⊢
                  omega
                simp only [ih f₂ l₂ k this.1 this.2]
        · rw [if_neg hk, if_neg hk]
          cases hrot : (if isRed l then rotateRight (.node i l r b)
              else .ok (.node i l r b)) with
          | error e => rfl
          | ok h₁ =>
            have hs1 := stepRR_size hrot
            cases h₁ with
            | nil => rfl
            | node i₁ l₁ r₁ b₁ =>
              dsimp only
              by_cases hret : (!less comp i₁ k && r₁.isNil) = true
              · rw [if_pos hret, if_pos hret]
              · rw [if_neg hret, if_neg hret]
                cases hst : (if !r₁.isNil && !isRed r₁ && !isRed r₁.left
                    then moveRedRight (.node i₁ l₁ r₁ b₁)
                    else .ok (.node i₁ l₁ r₁ b₁)) with
                | error e => rfl
                | ok h₂ =>
                  have hs2 := stepMRR_size hst
                  cases h₂ with
                  | nil => rfl
                  | node i₂ l₂ r₂ b₂ =>
                    dsimp only
                    by_cases heq : (!less comp i₂ k) = true
                    · rw [if_pos heq, if_pos heq]
                    · rw [if_neg heq, if_neg heq]
                      have : r₂.size ≤ f ∧ r₂.size ≤ f₂ := by
                        simp [Node.size] at hs1 hs2 h1 h2 ⊢
                        omega
                      simp only [ih f₂ r₂ k this.1 this.2]

/-- Iterative search: return a stored item with the same order as `key`. -/
def getN (comp : α → α → Bool) : Node α → Item α → Option (Item α)
  | .nil, _ => none
  | .node i l r _, k =>
    if less comp k i then getN comp l k
    else if less comp i k then getN comp r k
    else some i

/-- Walk to the leftmost node. -/
def minN : Node α → Option (Item α)
  | .nil => none
  | .node i .nil _ _ => some i
  | .node _ (.node li ll lr lb) _ _ => minN (.node li ll lr lb)

/-- Walk to the rightmost node. -/
def maxN : Node α → Option (Item α)
  | .nil => none
  | .node i _ .nil _ => some i
  | .node _ _ (.node ri rl rr rb) _ => maxN (.node ri rl rr rb)

/-- `replaceOrInsert` on nodes. -/
def replaceOrInsertN (comp : α → α → Bool) :
    Node α → Item α → Except String (Node α × Option (Item α))
  | .nil, x => .ok (newNode x, none)
  | .node i l r b, x =>
    if less comp x i then
      match replaceOrInsertN comp l x with
      | .error e => .error e
      | .ok (l', rep) =>
        match walkUpRot23 (.node i l' r b) with
        | .error e => .error e
        | .ok h' => .ok (h', rep)
    else if less comp i x then
      match replaceOrInsertN comp r x with
      | .error e => .error e
      | .ok (r', rep) =>
        match walkUpRot23 (.node i l r' b) with
        | .error e => .error e
        | .ok h' => .ok (h', rep)
    else
      match walkUpRot23 (.node x l r b) with
      | .error e => .error e
      | .ok h' => .ok (h', some i)

/-- `insertNoReplace` on nodes: an equivalent key routes right. -/
def insertNoReplaceN (comp : α → α → Bool) :
    Node α → Item α → Except String (Node α)
  | .nil, x => .ok (newNode x)
  | .node i l r b, x =>
    if less comp x i then
      match insertNoReplaceN comp l x with
      | .error e => .error e
      | .ok l' => walkUpRot23 (.node i l' r b)
    else
      match insertNoReplaceN comp r x with
      | .error e => .error e
      | .ok r' => walkUpRot23 (.node i l r' b)

/-- Force a root link black; an empty root is left alone. -/
def setBlackRoot : Node α → Node α
  | .nil => .nil
  | .node i l r _ => .node i l r true

/-- The tree object: item count, root node and the injected comparator. -/
structure LLRB (α : Type) where
  count : Int
  root : Node α
  comp : α → α → Bool

/-- `New` allocates a fresh tree for a comparator. -/
def New (comp : α → α → Bool) : LLRB α := ⟨0, .nil, comp⟩

def LLRB.SetRoot (t : LLRB α) (r : Node α) : LLRB α := { t with root := r }

def LLRB.Root (t : LLRB α) : Node α := t.root

def LLRB.Len (t : LLRB α) : Int := t.count

def LLRB.Get (t : LLRB α) (key : Item α) : Option (Item α) := getN t.comp t.root key

def LLRB.Has (t : LLRB α) (key : Item α) : Bool := (t.Get key).isSome

def LLRB.Min (t : LLRB α) : Option (Item α) := minN t.root

def LLRB.Max (t : LLRB α) : Option (Item α) := maxN t.root

/-- Public `ReplaceOrInsert`: rejects a null item, then inserts or replaces;
the root is forced black and the count incremented on a true insertion. -/
def LLRB.ReplaceOrInsert (t : LLRB α) :
    Option (Item α) → Except String (LLRB α × Option (Item α))
  | none => .error "inserting nil item"
  | some x =>
    match replaceOrInsertN t.comp t.root x with
    | .error e => .error e
    | .ok (.nil, _) => .error "nil node"
    | .ok (.node i l r _, rep) =>
      .ok ({ t with
              root := .node i l r true,
              count := match rep with | none => t.count + 1 | some _ => t.count }, rep)

/-- Public `InsertNoReplace`: rejects a null item, always inserts;
the root is forced black and the count always incremented. -/
def LLRB.InsertNoReplace (t : LLRB α) :
    Option (Item α) → Except String (LLRB α)
  | none => .error "inserting nil item"
  | some x =>
    match insertNoReplaceN t.comp t.root x with
    | .error e => .error e
    | .ok .nil => .error "nil node"
    | .ok (.node i l r _) =>
      .ok { t with
             root := .node i l r true,
             count := t.count + 1 }

/-- Public `Delete`: remove an item equivalent to `key`; re-blacken a
non-empty root and decrement the count only when something was deleted. -/
def LLRB.Delete (t : LLRB α) (key : Item α) :
    Except String (LLRB α × Option (Item α)) :=
  match deleteN t.comp t.root key with
  | .error e => .error e
  | .ok (root', d) =>
    .ok ({ t with
            root := setBlackRoot root',
            count := match d with | none => t.count | some _ => t.count - 1 }, d)

/-- Public `DeleteMin`. -/
def LLRB.DeleteMin (t : LLRB α) : Except String (LLRB α × Option (Item α)) :=
  match deleteMinN t.root with
  | .error e => .error e
  | .ok (root', d) =>
    .ok ({ t with
            root := setBlackRoot root',
            count := match d with | none => t.count | some _ => t.count - 1 }, d)

/-- Public `DeleteMax`. -/
def LLRB.DeleteMax (t : LLRB α) : Except String (LLRB α × Option (Item α)) :=
  match deleteMaxN t.root with
  | .error e => .error e
  | .ok (root', d) =>
    .ok ({ t with
            root := setBlackRoot root',
            count := match d with | none => t.count | some _ => t.count - 1 }, d)

/-! ### Small structural simp lemmas -/

@[simp] theorem isRed_nil : isRed (.nil : Node α) = false := rfl

@[simp] theorem isRed_node {i : Item α} {l r : Node α} {b : Bool} :
    isRed (.node i l r b) = !b := rfl

@[simp] theorem left_nil : (Node.nil : Node α).left = .nil := rfl

@[simp] theorem left_node {i : Item α} {l r : Node α} {b : Bool} :
    (Node.node i l r b).left = l := rfl

@[simp] theorem right_nil : (Node.nil : Node α).right = .nil := rfl

@[simp] theorem right_node {i : Item α} {l r : Node α} {b : Bool} :
    (Node.node i l r b).right = r := rfl

@[simp] theorem inorder_nil : inorder (.nil : Node α) = [] := rfl

@[simp] theorem inorder_node {i : Item α} {l r : Node α} {b : Bool} :
    inorder (.node i l r b) = inorder l ++ i :: inorder r := rfl

@[simp] theorem isNil_nil : (Node.nil : Node α).isNil = true := rfl

@[simp] theorem isNil_node {i : Item α} {l r : Node α} {b : Bool} :
    (Node.node i l r b).isNil = false := rfl

/-! ### Spec-side definitions for refinement comparison -/

/-- Modelled from the spec (§4.4): the deletion fix-up pass as the spec
words it — "rotate left if right link is red and left isn't; rotate right
if left link and its left child are both red; flip if both children are
red". -/
def fixUpSpecPass : Node α → Except String (Node α)
  | .nil => .error "nil node"
  | h =>
    match (if isRed h.right && !isRed h.left then rotateLeft h else .ok h) with
    | .error e => .error e
    | .ok h₁ =>
      match (if isRed h₁.left && isRed h₁.left.left then rotateRight h₁ else .ok h₁) with
      | .error e => .error e
      | .ok h₂ => if isRed h₂.left && isRed h₂.right then flip h₂ else .ok h₂

/-- The amended description of the deletion fix-up pass: the left rotation
fires whenever the right link is red, regardless of the left link. -/
def fixUpAmendedPass : Node α → Except String (Node α)
  | .nil => .error "nil node"
  | h =>
    match (if isRed h.right then rotateLeft h else .ok h) with
    | .error e => .error e
    | .ok h₁ =>
      match (if isRed h₁.left && isRed h₁.left.left then rotateRight h₁ else .ok h₁) with
      | .error e => .error e
      | .ok h₂ => if isRed h₂.left && isRed h₂.right then flip h₂ else .ok h₂

/-! ### Claim theorems: error handling, sentinels, raw-root access -/

/-- C10: `SetRoot` changes only the root reference: the stored count and
the comparator are untouched, so `Len` still returns the previously
recorded count regardless of the installed node graph. -/
theorem C10_setRoot_changes_only_root (t : LLRB α) (r : Node α) :
    (t.SetRoot r).root = r ∧ (t.SetRoot r).count = t.count ∧
    (t.SetRoot r).comp = t.comp ∧ (t.SetRoot r).Len = t.Len :=
  ⟨rfl, rfl, rfl, rfl⟩

/-- C6: inserting a null item (either insert entry point) and building a
sentinel with sign 0 each fail immediately with the caller-error, for every
tree state; in this functional model the failing call returns no tree at
all, so the tree the caller holds is untouched. -/
theorem C6_invalid_argument_errors (t : LLRB α) :
    t.ReplaceOrInsert none = .error "inserting nil item" ∧
    t.InsertNoReplace none = .error "inserting nil item" ∧
    (Inf 0 : Except String (Item α)) = .error "sign" :=
  ⟨rfl, rfl, rfl⟩

/-- C7: under `less`, `pinf` is above every real item and above `ninf`,
`ninf` is below every real item and below `pinf`, neither sentinel is
below itself, and the result never depends on the injected comparator
when either operand is a sentinel. -/
theorem C7_sentinel_order (comp comp' : α → α → Bool) (a : α) (y : Item α) :
    less comp (.item a) .pinf = true ∧
    less comp .pinf (.item a) = false ∧
    less comp .ninf (.item a) = true ∧
    less comp (.item a) .ninf = false ∧
    less comp .ninf .pinf = true ∧
    less comp .pinf .ninf = false ∧
    less comp .pinf .pinf = false ∧
    less comp .ninf .ninf = false ∧
    less comp .pinf y = less comp' .pinf y ∧
    less comp y .pinf = less comp' y .pinf ∧
    less comp .ninf y = less comp' .ninf y ∧
    less comp y .ninf = less comp' y .ninf := by
  cases y <;> simp [less]

/-- C5 (counterexample): the code's fix-up pass does not implement the
spec's guarded sequence: on a node whose right link, left link and left
grand-child link are all red, the results differ. -/
theorem C5_counterexample :
    fixUp (Node.node (Item.item (2 : Int))
        (.node (.item 1) (.node (.item 0) .nil .nil false) .nil false)
        (.node (.item 3) .nil .nil false) true) =
      .ok (.node (.item 2)
        (.node (.item 1) (.node (.item 0) .nil .nil false) .nil true)
        (.node (.item 3) .nil .nil true) false) ∧
    fixUpSpecPass (Node.node (Item.item (2 : Int))
        (.node (.item 1) (.node (.item 0) .nil .nil false) .nil false)
        (.node (.item 3) .nil .nil false) true) =
      .ok (.node (.item 1) (.node (.item 0) .nil .nil true)
        (.node (.item 2) .nil (.node (.item 3) .nil .nil false) true) false) ∧
    (Node.node (Item.item (2 : Int))
        (.node (.item 1) (.node (.item 0) .nil .nil false) .nil true)
        (.node (.item 3) .nil .nil true) false) ≠
      (.node (.item 1) (.node (.item 0) .nil .nil true)
        (.node (.item 2) .nil (.node (.item 3) .nil .nil false) true) false) :=
  ⟨rfl, rfl, by decide⟩

/-- C5 (amended): the fix-up pass rotates left whenever the right child's
link is red (with no condition on the left link), then rotates right on two
reds down the left spine, then flips when both children are red; it agrees
with the spec's guarded description except when the right link, the left
link and the left child's left link are simultaneously red. -/
theorem C5_amended_fixUp_order (h : Node α) :
    fixUp h = fixUpAmendedPass h ∧
    (¬(isRed h.right = true ∧ isRed h.left = true ∧ isRed h.left.left = true) →
      fixUp h = fixUpSpecPass h) := by
  constructor
  · cases h <;> rfl
  · intro hno
    cases h with
    | nil => rfl
    | node i l r b =>
      by_cases hr : isRed r = true
      · by_cases hl : isRed l = true
        swap
        · -- right red, left black: both passes rotate left, then coincide
          simp only [Bool.not_eq_true] at hl
          simp [fixUp, fixUpSpecPass, hr, hl]
        by_cases hll : isRed l.left = true
        case pos => exact absurd ⟨by simpa, by simpa, by simpa⟩ hno
        case neg =>
          -- right red, left red, left-left black: both passes flip after
          -- the code's cancelling rotation pair
          cases r with
          | nil => simp at hr
          | node ri rl rr rb =>
            cases rb with
            | true => simp at hr
            | false =>
              cases l with
              | nil => simp at hl
              | node li ll lr lb =>
                cases lb with
                | true => simp at hl
                | false =>
                  simp only [left_node, Bool.not_eq_true] at hll
                  simp [fixUp, fixUpSpecPass, hll, rotateLeft, rotateRight, flip]
      · -- right link black: the first step is skipped in both passes
        simp only [Bool.not_eq_true] at hr
        simp [fixUp, fixUpSpecPass, hr]

/-- Witness for the amended fix-up description at a concrete node. -/
theorem C5_amended_witness :
    fixUp (Node.node (Item.item (1 : Int)) .nil .nil true) =
      fixUpAmendedPass (Node.node (Item.item (1 : Int)) .nil .nil true) ∧
    fixUp (Node.node (Item.item (1 : Int)) .nil .nil true) =
      fixUpSpecPass (Node.node (Item.item (1 : Int)) .nil .nil true) := by
  have H := C5_amended_fixUp_order (Node.node (Item.item (1 : Int)) .nil .nil true)
  exact ⟨H.1, H.2 (by decide)⟩

/-! ### Order-theoretic assumptions and invariant predicates -/

/-- A strict weak order, as the spec requires of the injected comparator:
irreflexive, transitive, and with transitive incomparability. -/
structure SWOp (comp : α → α → Bool) : Prop where
  irrefl : ∀ a, comp a a = false
  trans : ∀ a b c, comp a b = true → comp b c = true → comp a c = true
  incompTrans : ∀ a b c, comp a b = false → comp b a = false →
    comp b c = false → comp c b = false → comp a c = false ∧ comp c a = false

/-- Key equivalence: neither item is below the other. -/
def equivI (comp : α → α → Bool) (x y : Item α) : Bool :=
  !less comp x y && !less comp y x

/-- `allN p n`: `p` holds of every item stored in `n`. -/
def allN (p : Item α → Bool) : Node α → Bool
  | .nil => true
  | .node i l r _ => p i && allN p l && allN p r

/-- The order invariant: every left-subtree item is not above the node's
item, every right-subtree item is not below it (the weak reading that
admits the duplicate chains `insertNoReplace` builds), recursively. -/
def ordered (comp : α → α → Bool) : Node α → Bool
  | .nil => true
  | .node i l r _ =>
    allN (fun y => !less comp i y) l && allN (fun y => !less comp y i) r &&
    ordered comp l && ordered comp r

/-- The left-leaning invariant: no red right-child link anywhere. -/
def leftLean : Node α → Bool
  | .nil => true
  | .node _ l r _ => !isRed r && leftLean l && leftLean r

/-- The no-double-red invariant: a red node has no red child link. -/
def okRed : Node α → Bool
  | .nil => true
  | .node _ l r b => (b || (!isRed l && !isRed r)) && okRed l && okRed r

/-- Black-link balance: the number of black links on every path to an
empty link, or `none` when the paths disagree. -/
def bhChk : Node α → Option Nat
  | .nil => some 0
  | .node _ l r _ =>
    match bhChk l, bhChk r with
    | some m, some n =>
      if m + (if isRed l then 0 else 1) = n + (if isRed r then 0 else 1)
      then some (m + (if isRed l then 0 else 1)) else none
    | _, _ => none

/-- All five invariants of the spec's §3 for a root node: order,
left-leaning, no-double-red, black-balance, and a black root link. -/
def invariants (comp : α → α → Bool) (h : Node α) : Bool :=
  ordered comp h && leftLean h && okRed h && (bhChk h).isSome && !isRed h

/-- The natural ascending comparator on integer payloads. -/
def intLess : Int → Int → Bool := fun a b => decide (a < b)

/-- C1 (code bug, evaluation): starting from a fresh tree, the public
sequence `InsertNoReplace 1, 1, 1, 0` builds a tree satisfying all the
LLRB invariants, yet the completed public mutation `Delete 1` returns a
tree that violates the black-balance invariant and silently drops a second
item (the count says 3 but only 2 items remain). -/
theorem C1_delete_breaks_invariants :
    (New intLess).InsertNoReplace (some (.item 1)) =
      .ok ⟨1, .node (.item 1) .nil .nil true, intLess⟩ ∧
    (⟨1, .node (.item 1) .nil .nil true, intLess⟩ : LLRB Int).InsertNoReplace
        (some (.item 1)) =
      .ok ⟨2, .node (.item 1) (.node (.item 1) .nil .nil false) .nil true, intLess⟩ ∧
    (⟨2, .node (.item 1) (.node (.item 1) .nil .nil false) .nil true,
        intLess⟩ : LLRB Int).InsertNoReplace (some (.item 1)) =
      .ok ⟨3, .node (.item 1) (.node (.item 1) .nil .nil true)
        (.node (.item 1) .nil .nil true) true, intLess⟩ ∧
    (⟨3, .node (.item 1) (.node (.item 1) .nil .nil true)
        (.node (.item 1) .nil .nil true) true, intLess⟩ : LLRB Int).InsertNoReplace
        (some (.item 0)) =
      .ok ⟨4, .node (.item 1)
        (.node (.item 1) (.node (.item 0) .nil .nil false) .nil true)
        (.node (.item 1) .nil .nil true) true, intLess⟩ ∧
    invariants intLess (.node (.item 1)
      (.node (.item 1) (.node (.item 0) .nil .nil false) .nil true)
      (.node (.item 1) .nil .nil true) true) = true ∧
    (⟨4, .node (.item 1)
        (.node (.item 1) (.node (.item 0) .nil .nil false) .nil true)
        (.node (.item 1) .nil .nil true) true, intLess⟩ : LLRB Int).Delete
        (.item 1) =
      .ok (⟨3, .node (.item 1) (.node (.item 0) .nil .nil true) .nil true,
        intLess⟩, some (.item 1)) ∧
    bhChk (Node.node (Item.item (1 : Int))
      (.node (.item 0) .nil .nil true) .nil true) = none ∧
    invariants intLess (.node (.item 1)
      (.node (.item 0) .nil .nil true) .nil true) = false ∧
    (inorder (Node.node (Item.item (1 : Int))
      (.node (.item 0) .nil .nil true) .nil true)).length = 2 :=
  ⟨rfl, rfl, rfl, rfl, by decide, rfl, by decide, by decide, rfl⟩

/-! ### Derived order lemmas -/

theorem SWOp.negTrans {comp : α → α → Bool} (H : SWOp comp) :
    ∀ a b c, comp a b = false → comp b c = false → comp a c = false := by
  intro a b c hab hbc
  by_cases hac : comp a c = true
  · by_cases hcb : comp c b = true
    · exact absurd (H.trans a c b hac hcb) (by simp [hab])
    · by_cases hba : comp b a = true
      · exact absurd (H.trans b a c hba hac) (by simp [hbc])
      · have := (H.incompTrans a b c hab (by simpa using hba) hbc
          (by simpa using hcb)).1
        exact absurd hac (by simp [this])
  · simpa using hac

theorem less_irrefl {comp : α → α → Bool} (H : SWOp comp) (x : Item α) :
    less comp x x = false := by
  cases x <;> simp [less, H.irrefl]

theorem less_trans {comp : α → α → Bool} (H : SWOp comp) {x y z : Item α}
    (h1 : less comp x y = true) (h2 : less comp y z = true) :
    less comp x z = true := by
  cases x <;> cases y <;> cases z <;> simp_all [less]
  exact H.trans _ _ _ h1 h2

theorem less_negTrans {comp : α → α → Bool} (H : SWOp comp) {x y z : Item α}
    (h1 : less comp x y = false) (h2 : less comp y z = false) :
    less comp x z = false := by
  cases x <;> cases y <;> cases z <;> simp_all [less]
  exact H.negTrans _ _ _ h1 h2

theorem less_asym {comp : α → α → Bool} (H : SWOp comp) {x y : Item α}
    (h : less comp x y = true) : less comp y x = false := by
  by_cases h2 : less comp y x = true
  · exact absurd (less_trans H h h2) (by simp [less_irrefl H])
  · simpa using h2

/-- `a < b` and `c ≤ b` give `a < c`... stated for the combination used in
the search proofs: from `a < b` and `¬(c < b)` infer `a < c`. -/
theorem less_of_less_of_notGT {comp : α → α → Bool} (H : SWOp comp)
    {a b c : Item α} (hab : less comp a b = true)
    (hcb : less comp c b = false) : less comp a c = true := by
  by_cases hac : less comp a c = true
  · exact hac
  · exact absurd hab (by
      simp [less_negTrans H (show less comp a c = false by simpa using hac) hcb])

/-- From `¬(b < a)` and `b < c` infer `a < c`. -/
theorem less_of_notLT_of_less {comp : α → α → Bool} (H : SWOp comp)
    {a b c : Item α} (hba : less comp b a = false)
    (hbc : less comp b c = true) : less comp a c = true := by
  by_cases hac : less comp a c = true
  · exact hac
  · exact absurd hbc (by
      simp [less_negTrans H hba (show less comp a c = false by simpa using hac)])

/-! ### Facts about `allN` and `ordered` -/

@[simp] theorem allN_nil {p : Item α → Bool} : allN p (.nil : Node α) = true := rfl

@[simp] theorem allN_node {p : Item α → Bool} {i : Item α} {l r : Node α} {b : Bool} :
    allN p (.node i l r b) = (p i && allN p l && allN p r) := rfl

@[simp] theorem ordered_nil {comp : α → α → Bool} :
    ordered comp (.nil : Node α) = true := rfl

@[simp] theorem ordered_node {comp : α → α → Bool} {i : Item α} {l r : Node α}
    {b : Bool} :
    ordered comp (.node i l r b) =
      (allN (fun y => !less comp i y) l && allN (fun y => !less comp y i) r &&
       ordered comp l && ordered comp r) := rfl

theorem allN_iff_mem {p : Item α → Bool} : ∀ {n : Node α},
    allN p n = true ↔ ∀ y ∈ inorder n, p y = true := by
  intro n
  induction n with
  | nil => simp
  | node i l r b ihl ihr =>
    simp only [allN_node, Bool.and_eq_true, inorder_node, List.mem_append,
      List.mem_cons]
    constructor
    · rintro ⟨⟨hi, hl⟩, hr⟩ y hy
      rcases hy with hy | (rfl | hy)
      · exact ihl.mp hl y hy
      · exact hi
      · exact ihr.mp hr y hy
    · intro hall
      exact ⟨⟨hall i (Or.inr (Or.inl rfl)),
        ihl.mpr fun y hy => hall y (Or.inl hy)⟩,
        ihr.mpr fun y hy => hall y (Or.inr (Or.inr hy))⟩

theorem allN_sub {p : Item α → Bool} {m n : Node α}
    (hsub : ∀ y ∈ inorder m, y ∈ inorder n)
    (hall : allN p n = true) : allN p m = true := by
  rw [allN_iff_mem] at hall ⊢
  exact fun y hy => hall y (hsub y hy)

/-- The order invariant is exactly "the in-order listing is non-decreasing"
(no later element strictly below an earlier one), given a strict weak
order. -/
theorem ordered_iff_pairwise {comp : α → α → Bool} (H : SWOp comp) :
    ∀ {n : Node α}, ordered comp n = true ↔
      (inorder n).Pairwise (fun a b => less comp b a = false) := by
  intro n
  induction n with
  | nil => simp
  | node i l r b ihl ihr =>
    rw [ordered_node]
    simp only [inorder_node, List.pairwise_append, List.pairwise_cons]
    constructor
    · intro h
      simp only [Bool.and_eq_true] at h
      obtain ⟨⟨⟨hli, hri⟩, hol⟩, hor⟩ := h
      rw [allN_iff_mem] at hli hri
      refine ⟨ihl.mp hol, ⟨fun y hy => by simpa using hri y hy, ihr.mp hor⟩, ?_⟩
      intro a ha b hb
      rcases List.mem_cons.mp hb with rfl | hb
      · simpa using hli a ha
      · have h1 : less comp i a = false := by simpa using hli a ha
        have h2 : less comp b i = false := by simpa using hri b hb
        exact less_negTrans H h2 h1
    · rintro ⟨hpl, ⟨hir, hpr⟩, hcross⟩
      simp only [Bool.and_eq_true]
      refine ⟨⟨⟨?_, ?_⟩, ihl.mpr hpl⟩, ihr.mpr hpr⟩
      · rw [allN_iff_mem]
        intro y hy
        have := hcross y hy i (by simp)
        simpa using this
      · rw [allN_iff_mem]
        intro y hy
        simpa using hir y hy

theorem ordered_of_inorder_eq {comp : α → α → Bool} (H : SWOp comp)
    {m n : Node α} (h : inorder m = inorder n)
    (ho : ordered comp n = true) : ordered comp m = true := by
  rw [ordered_iff_pairwise H, h, ← ordered_iff_pairwise H]
  exact ho

/-! ### In-order preservation of the rebalancing primitives -/

theorem rotateLeft_inorder {h h' : Node α} (H : rotateLeft h = .ok h') :
    inorder h' = inorder h := by
  unfold rotateLeft at H
  split at H
  · rw [Except.ok.injEq] at H; subst H; simp
  · simp at H
  · simp at H

theorem rotateRight_inorder {h h' : Node α} (H : rotateRight h = .ok h') :
    inorder h' = inorder h := by
  unfold rotateRight at H
  split at H
  · rw [Except.ok.injEq] at H; subst H; simp
  · simp at H
  · simp at H

theorem flip_inorder {h h' : Node α} (H : flip h = .ok h') :
    inorder h' = inorder h := by
  unfold flip at H
  split at H
  · rw [Except.ok.injEq] at H; subst H; simp
  · simp at H

theorem stepRL_inorder {c : Bool} {X h₁ : Node α}
    (H : (if c then rotateLeft X else .ok X) = .ok h₁) :
    inorder h₁ = inorder X := by
  split at H
  · exact rotateLeft_inorder H
  · rw [Except.ok.injEq] at H; subst H; rfl

theorem stepRR_inorder {c : Bool} {X h₁ : Node α}
    (H : (if c then rotateRight X else .ok X) = .ok h₁) :
    inorder h₁ = inorder X := by
  split at H
  · exact rotateRight_inorder H
  · rw [Except.ok.injEq] at H; subst H; rfl

theorem stepFlip_inorder {c : Bool} {X h₁ : Node α}
    (H : (if c then flip X else .ok X) = .ok h₁) :
    inorder h₁ = inorder X := by
  split at H
  · exact flip_inorder H
  · rw [Except.ok.injEq] at H; subst H; rfl

theorem moveRedLeft_inorder {h h' : Node α} (H : moveRedLeft h = .ok h') :
    inorder h' = inorder h := by
  unfold moveRedLeft at H
  split at H
  · simp at H
  next h₁ heq =>
    have e1 := flip_inorder heq
    split at H
    · split at H
      · simp at H
      next r' heqr =>
        have e2 := rotateRight_inorder heqr
        split at H
        · simp at H
        next a i l b =>
          split at H
          · simp at H
          next h₂ heq₂ =>
            have e3 := rotateLeft_inorder heq₂
            have e4 := flip_inorder H
            simp only [inorder_node, Node.right] at e1 e2 e3 e4 ⊢
            rw [e4, e3, e2]
            exact e1
    · rw [Except.ok.injEq] at H; subst H; exact e1

theorem moveRedRight_inorder {h h' : Node α} (H : moveRedRight h = .ok h') :
    inorder h' = inorder h := by
  unfold moveRedRight at H
  split at H
  · simp at H
  next h₁ heq =>
    have e1 := flip_inorder heq
    split at H
    · split at H
      · simp at H
      next h₂ heq₂ =>
        have e2 := rotateRight_inorder heq₂
        have e3 := flip_inorder H
        rw [e3, e2]; exact e1
    · rw [Except.ok.injEq] at H; subst H; exact e1

theorem mrlStep_inorder {h h' : Node α} (H : mrlStep h = .ok h') :
    inorder h' = inorder h := by
  unfold mrlStep at H
  split at H
  · exact moveRedLeft_inorder H
  · rw [Except.ok.injEq] at H; subst H; rfl

theorem mrrStep_inorder {h h' : Node α} (H : mrrStep h = .ok h') :
    inorder h' = inorder h := by
  unfold mrrStep at H
  split at H
  · exact moveRedRight_inorder H
  · rw [Except.ok.injEq] at H; subst H; rfl

theorem stepMRR_inorder {c : Bool} {X Y : Node α}
    (H : (if c then moveRedRight X else .ok X) = .ok Y) :
    inorder Y = inorder X := by
  split at H
  · exact moveRedRight_inorder H
  · rw [Except.ok.injEq] at H; subst H; rfl

theorem fixUp_inorder {h h' : Node α} (H : fixUp h = .ok h') :
    inorder h' = inorder h := by
  cases h with
  | nil => simp [fixUp] at H
  | node i l r b =>
    simp only [fixUp] at H
    split at H
    · simp at H
    next h₁ heq₁ =>
      split at H
      · simp at H
      next h₂ heq₂ =>
        have e1 := stepRL_inorder heq₁
        have e2 := stepRR_inorder heq₂
        have e3 := stepFlip_inorder H
        rw [e3, e2, e1]

theorem walkUpRot23_inorder {h h' : Node α} (H : walkUpRot23 h = .ok h') :
    inorder h' = inorder h := by
  cases h with
  | nil => simp [walkUpRot23] at H
  | node i l r b =>
    simp only [walkUpRot23] at H
    split at H
    · simp at H
    next h₁ heq₁ =>
      split at H
      · simp at H
      next h₂ heq₂ =>
        have e1 := stepRL_inorder heq₁
        have e2 := stepRR_inorder heq₂
        have e3 := stepFlip_inorder H
        rw [e3, e2, e1]

/-! ### Totality of the insertion fix-up and the insert operations -/

theorem isRed_shape {x : Node α} (h : isRed x = true) :
    ∃ xi xl xr, x = .node xi xl xr false := by
  cases x with
  | nil => simp at h
  | node xi xl xr xb =>
    cases xb with
    | false => exact ⟨xi, xl, xr, rfl⟩
    | true => simp at h

/-- `walkUpRot23` never fails on a real node: each rotation and flip is
guarded by exactly the redness its precondition needs. -/
theorem walkUpRot23_total (i : Item α) (l r : Node α) (b : Bool) :
    ∃ i' l' r' b', walkUpRot23 (.node i l r b) = .ok (.node i' l' r' b') := by
  simp only [walkUpRot23, right_node, left_node]
  by_cases g1 : (isRed r && !isRed l) = true
  · simp only [Bool.and_eq_true, Bool.not_eq_eq_eq_not, Bool.not_true] at g1
    obtain ⟨ri, rl, rr, rfl⟩ := isRed_shape g1.1
    have gl : isRed l = false := by simpa using g1.2
    by_cases g3 : isRed rr = true
    · obtain ⟨xi, xl, xr, rfl⟩ := isRed_shape g3
      simp [rotateLeft, flip, gl]
    · have g3' : isRed rr = false := by simpa using g3
      simp [rotateLeft, flip, gl, g3']
  · rw [if_neg g1]
    dsimp only
    by_cases g2 : (isRed l && isRed l.left) = true
    · simp only [Bool.and_eq_true] at g2
      obtain ⟨li, ll, lr, rfl⟩ := isRed_shape g2.1
      have gll : isRed ll = true := by simpa using g2.2
      obtain ⟨yi, yl, yr, rfl⟩ := isRed_shape gll
      simp [rotateRight, flip]
    · rw [if_neg (by simpa using g2)]
      dsimp only
      by_cases g3 : (isRed l && isRed r) = true
      · simp only [Bool.and_eq_true] at g3
        obtain ⟨li, ll, lr, rfl⟩ := isRed_shape g3.1
        obtain ⟨ri, rl, rr, rfl⟩ := isRed_shape g3.2
        simp [flip]
      · rw [if_neg (by simpa using g3)]
        exact ⟨_, _, _, _, rfl⟩

/-- `insertNoReplace` on nodes always succeeds, returns a real node, and
its in-order listing inserts the new item somewhere into the old listing,
keeping every previously stored item. -/
theorem insertNoReplaceN_total (comp : α → α → Bool) :
    ∀ (h : Node α) (x : Item α),
    ∃ i' l' r' b', insertNoReplaceN comp h x = .ok (.node i' l' r' b') ∧
      ∃ L₁ L₂, inorder h = L₁ ++ L₂ ∧
        inorder (Node.node i' l' r' b') = L₁ ++ x :: L₂ := by
  intro h
  induction h with
  | nil =>
    intro x
    exact ⟨x, .nil, .nil, false, rfl, [], [], rfl, rfl⟩
  | node i l r b ihl ihr =>
    intro x
    by_cases hx : less comp x i = true
    · obtain ⟨i', l', r', b', hins, L₁, L₂, hold, hnew⟩ := ihl x
      obtain ⟨i₂, l₂, r₂, b₂, hwu⟩ := walkUpRot23_total i (.node i' l' r' b') r b
      refine ⟨i₂, l₂, r₂, b₂, ?_, L₁, L₂ ++ i :: inorder r, ?_, ?_⟩
      · simp [insertNoReplaceN, hx, hins, hwu]
      · simp [hold]
      · have := walkUpRot23_inorder hwu
        rw [this]
        simp [hnew]
    · obtain ⟨i', l', r', b', hins, L₁, L₂, hold, hnew⟩ := ihr x
      obtain ⟨i₂, l₂, r₂, b₂, hwu⟩ := walkUpRot23_total i l (.node i' l' r' b') b
      refine ⟨i₂, l₂, r₂, b₂, ?_, inorder l ++ i :: L₁, L₂, ?_, ?_⟩
      · simp [insertNoReplaceN, hx, hins, hwu]
      · simp [hold]
      · have := walkUpRot23_inorder hwu
        rw [this]
        simp [hnew]

/-- C3: `InsertNoReplace` of a real item always succeeds, always increments
the count by one, and the new in-order listing is the old one with the item
spliced in at one position — every previously stored item, including all
comparator-equivalent duplicates, remains, so inserting two equivalent
items grows the listing by 2 and both stay traversable. -/
theorem C3_insertNoReplace_always_inserts (t : LLRB α) (x : Item α) :
    ∃ t', t.InsertNoReplace (some x) = .ok t' ∧
      t'.count = t.count + 1 ∧ t'.comp = t.comp ∧
      ∃ L₁ L₂, inorder t.root = L₁ ++ L₂ ∧
        inorder t'.root = L₁ ++ x :: L₂ ∧
      (inorder t'.root : Multiset (Item α)) = x ::ₘ (inorder t.root : Multiset (Item α)) := by
  obtain ⟨i', l', r', b', hins, L₁, L₂, hold, hnew⟩ :=
    insertNoReplaceN_total t.comp t.root x
  simp only [inorder_node] at hnew
  refine ⟨{ t with
            root := .node i' l' r' true,
            count := t.count + 1 }, ?_, rfl, rfl, L₁, L₂, hold, ?_, ?_⟩
  · simp only [LLRB.InsertNoReplace, hins]
  · simpa using hnew
  · show (inorder (Node.node i' l' r' true) : Multiset (Item α)) = _
    simp only [inorder_node]
    rw [hnew, hold]
    simp

/-! ### Search and replace-or-insert characterization -/

@[simp] theorem equivI_eq_true {comp : α → α → Bool} {x y : Item α} :
    equivI comp x y = true ↔
      less comp x y = false ∧ less comp y x = false := by
  simp [equivI]

@[simp] theorem equivI_eq_false {comp : α → α → Bool} {x y : Item α} :
    equivI comp x y = false ↔
      (less comp x y = true ∨ less comp y x = true) := by
  simp [equivI]
  constructor
  · intro h
    by_cases h1 : less comp x y = true
    · exact Or.inl h1
    · exact Or.inr (by simpa [show less comp x y = false by simpa using h1] using h)
  · rintro (h | h)
    · intro h2
      exact absurd h2 (by simp [h])
    · intro _
      exact h

/-- Characterization of `replaceOrInsert` on nodes over an ordered tree:
it always succeeds; either no stored item is equivalent to the new one and
the listing gains the item at one position with nothing replaced, or some
equivalent stored item is swapped out in place and returned. -/
theorem replaceOrInsertN_char {comp : α → α → Bool} (H : SWOp comp) :
    ∀ (h : Node α) (x : Item α), ordered comp h = true →
    ∃ i' l' r' b' rep,
      replaceOrInsertN comp h x = .ok (.node i' l' r' b', rep) ∧
      ((rep = none ∧ (∀ y ∈ inorder h, equivI comp y x = false) ∧
        ∃ L₁ L₂, inorder h = L₁ ++ L₂ ∧
          inorder (Node.node i' l' r' b') = L₁ ++ x :: L₂) ∨
       (∃ d L₁ L₂, rep = some d ∧ equivI comp d x = true ∧
        inorder h = L₁ ++ d :: L₂ ∧
        inorder (Node.node i' l' r' b') = L₁ ++ x :: L₂)) := by
  intro h
  induction h with
  | nil =>
    intro x _
    exact ⟨x, .nil, .nil, false, none, rfl,
      Or.inl ⟨rfl, by simp, [], [], rfl, rfl⟩⟩
  | node i l r b ihl ihr =>
    intro x ho
    simp only [ordered_node, Bool.and_eq_true] at ho
    obtain ⟨⟨⟨hli, hri⟩, hol⟩, hor⟩ := ho
    by_cases hx : less comp x i = true
    · obtain ⟨i', l', r', b', rep, hins, hch⟩ := ihl x hol
      obtain ⟨i₂, l₂, r₂, b₂, hwu⟩ := walkUpRot23_total i (.node i' l' r' b') r b
      have hino := walkUpRot23_inorder hwu
      refine ⟨i₂, l₂, r₂, b₂, rep, ?_, ?_⟩
      · simp only [replaceOrInsertN, hx, if_true, hins, hwu]
      · rcases hch with ⟨hrep, habs, L₁, L₂, hold, hnew⟩ |
          ⟨d, L₁, L₂, hrep, hequiv, hold, hnew⟩
        · refine Or.inl ⟨hrep, ?_, L₁, L₂ ++ i :: inorder r, by simp [hold], ?_⟩
          · intro y hy
            simp only [inorder_node, List.mem_append, List.mem_cons] at hy
            rcases hy with hy | (rfl | hy)
            · exact habs y hy
            · simp [hx]
            · have h1 : less comp y i = false := by
                rw [allN_iff_mem] at hri
                simpa using hri y hy
              simp [less_of_less_of_notGT H hx h1]
          · rw [hino]
            simp [hnew]
        · refine Or.inr ⟨d, L₁, L₂ ++ i :: inorder r, hrep, hequiv, by simp [hold], ?_⟩
          rw [hino]
          simp [hnew]
    · by_cases hx2 : less comp i x = true
      · obtain ⟨i', l', r', b', rep, hins, hch⟩ := ihr x hor
        obtain ⟨i₂, l₂, r₂, b₂, hwu⟩ := walkUpRot23_total i l (.node i' l' r' b') b
        have hino := walkUpRot23_inorder hwu
        refine ⟨i₂, l₂, r₂, b₂, rep, ?_, ?_⟩
        · simp only [replaceOrInsertN, hx, hx2, if_true, if_false, hins, hwu]
          simp
        · rcases hch with ⟨hrep, habs, L₁, L₂, hold, hnew⟩ |
            ⟨d, L₁, L₂, hrep, hequiv, hold, hnew⟩
          · refine Or.inl ⟨hrep, ?_, inorder l ++ i :: L₁, L₂, by simp [hold], ?_⟩
            · intro y hy
              simp only [inorder_node, List.mem_append, List.mem_cons] at hy
              rcases hy with hy | (rfl | hy)
              · have h1 : less comp i y = false := by
                  rw [allN_iff_mem] at hli
                  simpa using hli y hy
                simp [less_of_notLT_of_less H h1 hx2]
              · simp [hx2]
              · exact habs y hy
            · rw [hino]
              simp [hnew]
          · refine Or.inr ⟨d, inorder l ++ i :: L₁, L₂, hrep, hequiv,
              by simp [hold], ?_⟩
            rw [hino]
            simp [hnew]
      · obtain ⟨i₂, l₂, r₂, b₂, hwu⟩ := walkUpRot23_total x l r b
        have hino := walkUpRot23_inorder hwu
        refine ⟨i₂, l₂, r₂, b₂, some i, ?_,
          Or.inr ⟨i, inorder l, inorder r, rfl, ?_, rfl, ?_⟩⟩
        · simp only [replaceOrInsertN, hx, hx2, if_false, hwu]
          simp
        · simp [show less comp i x = false by simpa using hx2,
            show less comp x i = false by simpa using hx]
        · rw [hino]
          simp

/-- C2: on an ordered tree under a strict weak order, `ReplaceOrInsert`
of a real item either (a) finds a stored comparator-equivalent item, swaps
it for the new one in place (the listing changes at exactly that position),
returns the displaced item and leaves the count unchanged, or (b) no stored
item is equivalent, and it splices the item into the listing, increments
the count, and returns nothing. -/
theorem C2_replaceOrInsert_spec (t : LLRB α) (x : Item α) (H : SWOp t.comp)
    (ho : ordered t.comp t.root = true) :
    ∃ t' rep, t.ReplaceOrInsert (some x) = .ok (t', rep) ∧ t'.comp = t.comp ∧
      ((rep = none ∧ (∀ y ∈ inorder t.root, equivI t.comp y x = false) ∧
        t'.count = t.count + 1 ∧
        ∃ L₁ L₂, inorder t.root = L₁ ++ L₂ ∧ inorder t'.root = L₁ ++ x :: L₂) ∨
       (∃ d L₁ L₂, rep = some d ∧ equivI t.comp d x = true ∧
        d ∈ inorder t.root ∧ t'.count = t.count ∧
        inorder t.root = L₁ ++ d :: L₂ ∧ inorder t'.root = L₁ ++ x :: L₂)) := by
  obtain ⟨i', l', r', b', rep, hins, hch⟩ := replaceOrInsertN_char H t.root x ho
  rcases hch with ⟨hrep, habs, L₁, L₂, hold, hnew⟩ |
    ⟨d, L₁, L₂, hrep, hequiv, hold, hnew⟩
  · subst hrep
    refine ⟨{ t with
              root := .node i' l' r' true,
              count := t.count + 1 }, none, ?_, rfl,
      Or.inl ⟨rfl, habs, rfl, L₁, L₂, hold, by simpa using hnew⟩⟩
    simp only [LLRB.ReplaceOrInsert, hins]
  · subst hrep
    refine ⟨{ t with
              root := .node i' l' r' true,
              count := t.count }, some d, ?_, rfl,
      Or.inr ⟨d, L₁, L₂, rfl, hequiv, by simp [hold], rfl, hold,
        by simpa using hnew⟩⟩
    simp only [LLRB.ReplaceOrInsert, hins]

/-- The ascending integer comparator is a strict weak order. -/
theorem SWOp_intLess : SWOp intLess := by
  constructor
  · intro a
    simp [intLess]
  · intro a b c h1 h2
    simp only [intLess, decide_eq_true_eq] at h1 h2 ⊢
    omega
  · intro a b c h1 h2 h3 h4
    simp only [intLess, decide_eq_false_iff_not, decide_eq_true_eq] at h1 h2 h3 h4 ⊢
    omega

/-- Witness for C2 at a concrete tree and item. -/
theorem C2_witness :
    ∃ t' rep,
      (⟨1, .node (.item 5) .nil .nil true, intLess⟩ : LLRB Int).ReplaceOrInsert
        (some (.item 5)) = .ok (t', rep) ∧ t'.comp = intLess ∧
      ((rep = none ∧
        (∀ y ∈ inorder (Node.node (Item.item (5 : Int)) .nil .nil true),
          equivI intLess y (.item 5) = false) ∧
        t'.count = 2 ∧
        ∃ L₁ L₂, inorder (Node.node (Item.item (5 : Int)) .nil .nil true) = L₁ ++ L₂ ∧
          inorder t'.root = L₁ ++ (.item 5) :: L₂) ∨
       (∃ d L₁ L₂, rep = some d ∧ equivI intLess d (.item 5) = true ∧
        d ∈ inorder (Node.node (Item.item (5 : Int)) .nil .nil true) ∧
        t'.count = 1 ∧
        inorder (Node.node (Item.item (5 : Int)) .nil .nil true) = L₁ ++ d :: L₂ ∧
        inorder t'.root = L₁ ++ (.item 5) :: L₂)) :=
  C2_replaceOrInsert_spec ⟨1, .node (.item 5) .nil .nil true, intLess⟩
    (.item 5) SWOp_intLess (by decide)

/-- Characterization of `getN` over an ordered tree. -/
theorem getN_char {comp : α → α → Bool} (H : SWOp comp) :
    ∀ (h : Node α) (k : Item α), ordered comp h = true →
    (∀ y, getN comp h k = some y → y ∈ inorder h ∧ equivI comp y k = true) ∧
    (getN comp h k = none → ∀ y ∈ inorder h, equivI comp y k = false) := by
  intro h
  induction h with
  | nil =>
    intro k _
    exact ⟨fun y hy => by simp [getN] at hy, fun _ y hy => by simp at hy⟩
  | node i l r b ihl ihr =>
    intro k ho
    simp only [ordered_node, Bool.and_eq_true] at ho
    obtain ⟨⟨⟨hli, hri⟩, hol⟩, hor⟩ := ho
    rw [allN_iff_mem] at hli hri
    by_cases hk : less comp k i = true
    · constructor
      · intro y hy
        simp only [getN, hk, if_true] at hy
        obtain ⟨hmem, hequiv⟩ := (ihl k hol).1 y hy
        exact ⟨by simp [hmem], hequiv⟩
      · intro hn y hy
        simp only [getN, hk, if_true] at hn
        simp only [inorder_node, List.mem_append, List.mem_cons] at hy
        rcases hy with hy | (rfl | hy)
        · exact (ihl k hol).2 hn y hy
        · simp [hk]
        · have h1 : less comp y i = false := by simpa using hri y hy
          simp [less_of_less_of_notGT H hk h1]
    · by_cases hk2 : less comp i k = true
      · constructor
        · intro y hy
          simp only [getN, hk, hk2, if_true, if_false] at hy
          obtain ⟨hmem, hequiv⟩ := (ihr k hor).1 y (by simpa using hy)
          exact ⟨by simp [hmem], hequiv⟩
        · intro hn y hy
          simp only [getN, hk, hk2, if_true, if_false] at hn
          simp only [inorder_node, List.mem_append, List.mem_cons] at hy
          rcases hy with hy | (rfl | hy)
          · have h1 : less comp i y = false := by simpa using hli y hy
            simp [less_of_notLT_of_less H h1 hk2]
          · simp [hk2]
          · exact (ihr k hor).2 (by simpa using hn) y hy
      · constructor
        · intro y hy
          simp [getN, hk, hk2] at hy
          subst hy
          refine ⟨by simp, ?_⟩
          simp [show less comp i k = false by simpa using hk2,
            show less comp k i = false by simpa using hk]
        · intro hn
          simp [getN, hk, hk2] at hn

/-- C9: on an ordered tree under a strict weak order, `Get` returns a
stored item comparator-equivalent to the key when one exists (not
necessarily the queried key itself), and "not found" exactly when no
stored item is equivalent; `Has` is exactly the success of `Get`, and in
this pure functional embedding `Get`, `Has`, `Min` and `Max` return only
values and cannot mutate the tree. -/
theorem C9_get_spec (t : LLRB α) (k : Item α) (H : SWOp t.comp)
    (ho : ordered t.comp t.root = true) :
    (∀ y, t.Get k = some y → y ∈ inorder t.root ∧ equivI t.comp y k = true) ∧
    ((∃ y ∈ inorder t.root, equivI t.comp y k = true) → t.Get k ≠ none) ∧
    (t.Get k = none → ∀ y ∈ inorder t.root, equivI t.comp y k = false) ∧
    t.Has k = (t.Get k).isSome ∧
    t.Min = minN t.root ∧ t.Max = maxN t.root := by
  obtain ⟨hsome, hnone⟩ := getN_char H t.root k ho
  refine ⟨hsome, ?_, hnone, rfl, rfl, rfl⟩
  rintro ⟨y, hy, hequiv⟩ hn
  exact absurd hequiv (by simp [hnone hn y hy])

/-- Witness for C9 at a concrete tree and key. -/
theorem C9_witness :
    (∀ y, (⟨1, .node (.item 5) .nil .nil true, intLess⟩ : LLRB Int).Get (.item 5) =
        some y → y ∈ inorder (Node.node (Item.item (5 : Int)) .nil .nil true) ∧
        equivI intLess y (.item 5) = true) ∧
    ((∃ y ∈ inorder (Node.node (Item.item (5 : Int)) .nil .nil true),
        equivI intLess y (.item 5) = true) →
      (⟨1, .node (.item 5) .nil .nil true, intLess⟩ : LLRB Int).Get (.item 5) ≠ none) ∧
    ((⟨1, .node (.item 5) .nil .nil true, intLess⟩ : LLRB Int).Get (.item 5) = none →
      ∀ y ∈ inorder (Node.node (Item.item (5 : Int)) .nil .nil true),
        equivI intLess y (.item 5) = false) ∧
    (⟨1, .node (.item 5) .nil .nil true, intLess⟩ : LLRB Int).Has (.item 5) =
      ((⟨1, .node (.item 5) .nil .nil true, intLess⟩ : LLRB Int).Get (.item 5)).isSome ∧
    (⟨1, .node (.item 5) .nil .nil true, intLess⟩ : LLRB Int).Min =
      minN (Node.node (Item.item (5 : Int)) .nil .nil true) ∧
    (⟨1, .node (.item 5) .nil .nil true, intLess⟩ : LLRB Int).Max =
      maxN (Node.node (Item.item (5 : Int)) .nil .nil true) :=
  C9_get_spec ⟨1, .node (.item 5) .nil .nil true, intLess⟩ (.item 5)
    SWOp_intLess (by decide)

/-! ### The structural LLRB invariant as an inductive balance predicate -/

/-- `Bal h c n`: `h` has incoming-link color `c` (`true` = black, with the
empty link black), every red node has two black children (no double red),
every black node has a black right child (left-leaning), and every path
from `h` down passes `n` black nodes. `Bal h true n` is exactly the
conjunction of the boolean invariants `leftLean`, `okRed`, black-balance
and a black root link. -/
inductive Bal : Node α → Bool → Nat → Prop where
  | nil : Bal .nil true 0
  | red {i : Item α} {l r : Node α} {n : Nat} :
      Bal l true n → Bal r true n → Bal (.node i l r false) false n
  | black {i : Item α} {l r : Node α} {n : Nat} {cl : Bool} :
      Bal l cl n → Bal r true n → Bal (.node i l r true) true (n + 1)

theorem Bal.isRed_eq {h : Node α} {c : Bool} {n : Nat} :
    Bal h c n → isRed h = !c := by
  intro H
  cases H <;> simp

theorem Bal_true_zero {h : Node α} (H : Bal h true 0) : h = .nil := by
  cases H
  rfl

theorem Bal_red_shape {h : Node α} {n : Nat} (H : Bal h false n) :
    ∃ i l r, h = .node i l r false ∧ Bal l true n ∧ Bal r true n := by
  cases H with
  | red hl hr => exact ⟨_, _, _, rfl, hl, hr⟩

/-- A red node whose left child is itself a valid red node and whose right
child is black-valid: the tolerated top violation passed upward. -/
def IRL (h : Node α) (n : Nat) : Prop :=
  ∃ i li ll lr r, h = .node i (.node li ll lr false) r false ∧
    Bal (.node li ll lr false) false n ∧ Bal r true n

theorem setBlackRoot_Bal {h : Node α} {c : Bool} {n : Nat} (H : Bal h c n) :
    ∃ n', Bal (setBlackRoot h) true n' := by
  cases H with
  | nil => exact ⟨0, Bal.nil⟩
  | red hl hr => exact ⟨_, Bal.black hl hr⟩
  | black hl hr => exact ⟨_, Bal.black hl hr⟩

theorem setBlackRoot_IRL {h : Node α} {n : Nat} (H : IRL h n) :
    Bal (setBlackRoot h) true (n + 1) := by
  obtain ⟨i, li, ll, lr, r, rfl, hl, hr⟩ := H
  exact Bal.black hl hr

/-! ### Evaluation of the rebalancing steps on the shapes the proofs meet -/

theorem fixUp_noop {i : Item α} {l r : Node α} {b : Bool}
    (hr : isRed r = false) (hll : (isRed l && isRed l.left) = false) :
    fixUp (.node i l r b) = .ok (.node i l r b) := by
  simp [fixUp, hr, hll]

theorem fixUp_redRight {i ri : Item α} {l rl rr : Node α} {b : Bool}
    (hl : isRed l = false) (hrr : isRed rr = false) :
    fixUp (.node i l (.node ri rl rr false) b) =
      .ok (.node ri (.node i l rl false) rr b) := by
  simp [fixUp, rotateLeft, hl, hrr]

theorem fixUp_bothRed {i li ri : Item α} {ll lr rl rr : Node α} {b : Bool} :
    fixUp (.node i (.node li ll lr false) (.node ri rl rr false) b) =
      .ok (.node i (.node li ll lr true) (.node ri rl rr true) (!b)) := by
  simp [fixUp, rotateLeft, rotateRight, flip]

theorem moveRedLeft_plain {i li ri : Item α} {ll lr rl rr : Node α}
    {lb rb b : Bool} (hrl : isRed rl = false) :
    moveRedLeft (.node i (.node li ll lr lb) (.node ri rl rr rb) b) =
      .ok (.node i (.node li ll lr (!lb)) (.node ri rl rr (!rb)) (!b)) := by
  simp [moveRedLeft, flip, hrl]

theorem moveRedLeft_rotate {i li ri rli : Item α} {ll lr rll rlr rr : Node α}
    {lb b : Bool} :
    moveRedLeft (.node i (.node li ll lr lb)
        (.node ri (.node rli rll rlr false) rr true) b) =
      .ok (.node rli (.node i (.node li ll lr (!lb)) rll true)
        (.node ri rlr rr true) b) := by
  simp [moveRedLeft, flip, rotateLeft, rotateRight]

theorem moveRedRight_plain {i li ri : Item α} {ll lr rl rr : Node α}
    {lb rb b : Bool} (hll : isRed ll = false) :
    moveRedRight (.node i (.node li ll lr lb) (.node ri rl rr rb) b) =
      .ok (.node i (.node li ll lr (!lb)) (.node ri rl rr (!rb)) (!b)) := by
  simp [moveRedRight, flip, hll]

theorem moveRedRight_rotate {i li lli ri : Item α} {lll llr lr rl rr : Node α}
    {rb b : Bool} :
    moveRedRight (.node i (.node li (.node lli lll llr false) lr true)
        (.node ri rl rr rb) b) =
      .ok (.node li (.node lli lll llr true)
        (.node i lr (.node ri rl rr (!rb)) true) b) := by
  simp [moveRedRight, flip, rotateRight]

/-! ### Rebuilding helpers for ordered listings -/

/-- Rebuild the order invariant after the left subtree shrank. -/
theorem ordered_rebuildL {comp : α → α → Bool} {i : Item α}
    {l l' r : Node α} {b b' : Bool}
    (ho : ordered comp (.node i l r b) = true)
    (hsub : ∀ y ∈ inorder l', y ∈ inorder l)
    (hol : ordered comp l' = true) :
    ordered comp (.node i l' r b') = true := by
  simp only [ordered_node, Bool.and_eq_true] at ho ⊢
  exact ⟨⟨⟨allN_sub hsub ho.1.1.1, ho.1.1.2⟩, hol⟩, ho.2⟩

/-- Rebuild the order invariant after the right subtree shrank. -/
theorem ordered_rebuildR {comp : α → α → Bool} {i : Item α}
    {l r r' : Node α} {b b' : Bool}
    (ho : ordered comp (.node i l r b) = true)
    (hsub : ∀ y ∈ inorder r', y ∈ inorder r)
    (hor : ordered comp r' = true) :
    ordered comp (.node i l r' b') = true := by
  simp only [ordered_node, Bool.and_eq_true] at ho ⊢
  exact ⟨⟨⟨ho.1.1.1, allN_sub hsub ho.1.1.2⟩, ho.1.2⟩, hor⟩

/-- A minimum of the left subtree is a minimum of the whole node. -/
theorem min_rebuild {comp : α → α → Bool} (H : SWOp comp) {i d : Item α}
    {l r : Node α} {b : Bool}
    (ho : ordered comp (.node i l r b) = true)
    (hd : d ∈ inorder l)
    (hmin : ∀ y ∈ inorder l, less comp y d = false) :
    ∀ y ∈ inorder (Node.node i l r b), less comp y d = false := by
  simp only [ordered_node, Bool.and_eq_true] at ho
  have hid : less comp i d = false := by
    rw [allN_iff_mem] at *
    simpa using ho.1.1.1 d hd
  intro y hy
  simp only [inorder_node, List.mem_append, List.mem_cons] at hy
  rcases hy with hy | (rfl | hy)
  · exact hmin y hy
  · exact hid
  · have hyi : less comp y i = false := by
      have := ho.1.1.2
      rw [allN_iff_mem] at this
      simpa using this y hy
    exact less_negTrans H hyi hid


/-- Decompose order of a node: the left subtree is ordered. -/
theorem ordered_left {comp : α → α → Bool} {i : Item α} {l r : Node α} {b : Bool}
    (ho : ordered comp (.node i l r b) = true) : ordered comp l = true := by
  rw [ordered_node] at ho
  simp only [Bool.and_eq_true] at ho
  exact ho.1.2

/-- Decompose order of a node: the right subtree is ordered. -/
theorem ordered_right {comp : α → α → Bool} {i : Item α} {l r : Node α} {b : Bool}
    (ho : ordered comp (.node i l r b) = true) : ordered comp r = true := by
  rw [ordered_node] at ho
  simp only [Bool.and_eq_true] at ho
  exact ho.2

/-- deleteMin preserves black-balance at the same height, preserves order, and
removes exactly the head of the inorder list, provided the node or its left
child is red. -/
theorem deleteMin_aux {comp : α → α → Bool} (H : SWOp comp) :
    ∀ (fuel : Nat) (h : Node α) (c : Bool) (n : Nat),
    h.size ≤ fuel → Bal h c n → ordered comp h = true →
    (isRed h = true ∨ isRed h.left = true) →
    ∃ h' c' d, deleteMinGas fuel h = .ok (h', some d) ∧
      Bal h' c' n ∧ (c = true → c' = true) ∧ ordered comp h' = true ∧
      inorder h = d :: inorder h' ∧
      (∀ y ∈ inorder h, less comp y d = false) := by
  intro fuel
  induction fuel with
  | zero =>
    intro h c n hsz HB _ hS
    cases HB with
    | nil => simp at hS
    | red hl hr => simp [Node.size] at hsz
    | black hl hr => simp [Node.size] at hsz
  | succ fuel ih =>
    intro h c n hsz HB hord hS
    cases HB with
    | nil => simp at hS
    | @red i l r n hl hr =>
      cases l with
      | nil =>
        cases hl
        have hrn : r = .nil := Bal_true_zero hr
        subst hrn
        refine ⟨.nil, true, i, rfl, Bal.nil, by simp, rfl, by simp, ?_⟩
        intro y hy
        simp at hy
        subst hy
        exact less_irrefl H y
      | node li ll lr lb =>
        cases hl with
        | @black _ _ _ m cll hll hlr =>
          by_cases hcll : isRed ll = true
          · -- spare red below: no moveRedLeft, recurse into the left child
            have hst : mrlStep (.node i (.node li ll lr true) r false) =
                .ok (.node i (.node li ll lr true) r false) := by
              simp [mrlStep, hcll]
            have hszl : (Node.node li ll lr true).size ≤ fuel := by
              simp [Node.size] at hsz ⊢
              omega
            obtain ⟨l', c₁', d, hrec, hBl', himp, hordl', hinol, hminl⟩ :=
              ih (.node li ll lr true) true (m + 1) hszl (Bal.black hll hlr)
                (ordered_left hord) (Or.inr (by simpa using hcll))
            have hc₁ : c₁' = true := himp rfl
            subst hc₁
            have hfix : fixUp (.node i l' r false) = .ok (.node i l' r false) :=
              fixUp_noop (by simp [hr.isRed_eq]) (by simp [hBl'.isRed_eq])
            have hsub : ∀ y ∈ inorder l', y ∈ inorder (Node.node li ll lr true) := by
              intro y hy
              rw [hinol]
              simp [hy]
            refine ⟨.node i l' r false, false, d, ?_, Bal.red hBl' hr, by simp,
              ?_, ?_, ?_⟩
            · simp only [deleteMinGas, hst, hrec, hfix]
            · exact ordered_rebuildL hord hsub hordl'
            · simp [hinol]
            · exact min_rebuild H hord (by rw [hinol]; simp) hminl
          · -- moveRedLeft fires
            have hcll' : isRed ll = false := by simpa using hcll
            cases cll with
            | false => simp [hll.isRed_eq] at hcll'
            | true =>
            cases hr with
            | @black ri rl rr _ crl hrl hrr =>
              by_cases hcrl : isRed rl = true
              · -- inner rotation case of moveRedLeft
                cases crl with
                | true => simp [hrl.isRed_eq] at hcrl
                | false =>
                obtain ⟨rli, rll, rlr, hsh, hrll, hrlr⟩ := Bal_red_shape hrl
                subst hsh
                have hst : mrlStep (.node i (.node li ll lr true)
                    (.node ri (.node rli rll rlr false) rr true) false) =
                    .ok (.node rli
                      (.node i (.node li ll lr false) rll true)
                      (.node ri rlr rr true) false) := by
                  rw [mrlStep]
                  rw [if_pos (by simp [hcll'])]
                  exact moveRedLeft_rotate
                have hord₂ : ordered comp (.node rli
                    (.node i (.node li ll lr false) rll true)
                    (.node ri rlr rr true) false) = true :=
                  ordered_of_inorder_eq H (mrlStep_inorder hst) hord
                have hszA : (Node.node i (.node li ll lr false) rll true).size ≤
                    fuel := by
                  simp [Node.size] at hsz ⊢
                  omega
                obtain ⟨A', c₁', d, hrec, hBA', himp, hordA', hinoA, hminA⟩ :=
                  ih (.node i (.node li ll lr false) rll true) true (m + 1) hszA
                    (Bal.black (Bal.red hll hlr) hrll) (ordered_left hord₂)
                    (Or.inr (by simp))
                have hc₁ : c₁' = true := himp rfl
                subst hc₁
                have hfix : fixUp (.node rli A' (.node ri rlr rr true) false) =
                    .ok (.node rli A' (.node ri rlr rr true) false) :=
                  fixUp_noop (by simp) (by simp [hBA'.isRed_eq])
                have hsub : ∀ y ∈ inorder A',
                    y ∈ inorder (Node.node i (.node li ll lr false) rll true) := by
                  intro y hy
                  rw [hinoA]
                  simp [hy]
                refine ⟨.node rli A' (.node ri rlr rr true) false, false, d,
                  ?_, Bal.red hBA' (Bal.black hrlr hrr), by simp, ?_, ?_, ?_⟩
                · simp only [deleteMinGas, hst, hrec, hfix]
                · exact ordered_rebuildL hord₂ hsub hordA'
                · rw [← mrlStep_inorder hst]
                  simp [hinoA]
                · intro y hy
                  rw [← mrlStep_inorder hst] at hy
                  exact min_rebuild H hord₂ (by rw [hinoA]; simp) hminA y hy
              · -- plain flip case of moveRedLeft
                have hcrl' : isRed rl = false := by simpa using hcrl
                cases crl with
                | false => simp [hrl.isRed_eq] at hcrl'
                | true =>
                have hst : mrlStep (.node i (.node li ll lr true)
                    (.node ri rl rr true) false) =
                    .ok (.node i (.node li ll lr false)
                      (.node ri rl rr false) true) := by
                  rw [mrlStep]
                  rw [if_pos (by simp [hcll'])]
                  exact moveRedLeft_plain hcrl'
                have hord₂ : ordered comp (.node i (.node li ll lr false)
                    (.node ri rl rr false) true) = true :=
                  ordered_of_inorder_eq H (mrlStep_inorder hst) hord
                have hszA : (Node.node li ll lr false).size ≤ fuel := by
                  simp [Node.size] at hsz ⊢
                  omega
                obtain ⟨A', c₁', d, hrec, hBA', _, hordA', hinoA, hminA⟩ :=
                  ih (.node li ll lr false) false m hszA (Bal.red hll hlr)
                    (ordered_left hord₂) (Or.inl (by simp))
                have hsub : ∀ y ∈ inorder A',
                    y ∈ inorder (Node.node li ll lr false) := by
                  intro y hy
                  rw [hinoA]
                  simp [hy]
                have hordpre : ordered comp
                    (.node i A' (.node ri rl rr false) true) = true :=
                  ordered_rebuildL hord₂ hsub hordA'
                cases hc₁ : c₁'
                · -- the recursive result is red: both children red, flip back
                  obtain ⟨xi, xl, xr, hsh, hxl, hxr⟩ := Bal_red_shape (hc₁ ▸ hBA')
                  subst hsh
                  have hfix : fixUp (.node i (.node xi xl xr false)
                      (.node ri rl rr false) true) =
                      .ok (.node i (.node xi xl xr true)
                        (.node ri rl rr true) false) := fixUp_bothRed
                  refine ⟨.node i (.node xi xl xr true) (.node ri rl rr true) false,
                    false, d, ?_, Bal.red (Bal.black hxl hxr) (Bal.black hrl hrr),
                    by simp, ?_, ?_, ?_⟩
                  · simp only [deleteMinGas, hst, hrec, hfix]
                  · exact ordered_of_inorder_eq H (by simp) hordpre
                  · rw [← mrlStep_inorder hst]
                    simp [hinoA]
                  · intro y hy
                    rw [← mrlStep_inorder hst] at hy
                    exact min_rebuild H hord₂ (by rw [hinoA]; simp) hminA y hy
                · -- the recursive result is black: rotate the red right child up
                  have hBA'' : Bal A' true m := hc₁ ▸ hBA'
                  have hfix : fixUp (.node i A' (.node ri rl rr false) true) =
                      .ok (.node ri (.node i A' rl false) rr true) :=
                    fixUp_redRight (by simp [hBA''.isRed_eq])
                      (by simp [hrr.isRed_eq])
                  refine ⟨.node ri (.node i A' rl false) rr true, true, d, ?_,
                    Bal.black (Bal.red hBA'' hrl) hrr, by simp, ?_, ?_, ?_⟩
                  · simp only [deleteMinGas, hst, hrec, hfix]
                  · refine ordered_of_inorder_eq H ?_ hordpre
                    simp
                  · rw [← mrlStep_inorder hst]
                    simp [hinoA]
                  · intro y hy
                    rw [← mrlStep_inorder hst] at hy
                    exact min_rebuild H hord₂ (by rw [hinoA]; simp) hminA y hy
    | @black i l r m cl hl hr =>
      rcases hS with hS | hS
      · simp at hS
      · -- the left child is red
        simp only [left_node] at hS
        cases cl with
        | true => simp [hl.isRed_eq] at hS
        | false =>
        obtain ⟨li, ll, lr, hsh, hll, hlr⟩ := Bal_red_shape hl
        subst hsh
        have hst : mrlStep (.node i (.node li ll lr false) r true) =
            .ok (.node i (.node li ll lr false) r true) := by
          simp [mrlStep]
        have hszl : (Node.node li ll lr false).size ≤ fuel := by
          simp [Node.size] at hsz ⊢
          omega
        obtain ⟨l', c₁', d, hrec, hBl', _, hordl', hinol, hminl⟩ :=
          ih (.node li ll lr false) false m hszl (Bal.red hll hlr)
            (ordered_left hord) (Or.inl (by simp))
        have hlnotred2 : (isRed l' && isRed l'.left) = false := by
          cases hc₁ : c₁'
          · obtain ⟨xi, xl, xr, hsh, hxl, _⟩ := Bal_red_shape (hc₁ ▸ hBl')
            subst hsh
            simp [hxl.isRed_eq]
          · simp [(hc₁ ▸ hBl' : Bal l' true m).isRed_eq]
        have hfix : fixUp (.node i l' r true) = .ok (.node i l' r true) :=
          fixUp_noop (by simp [hr.isRed_eq]) hlnotred2
        have hsub : ∀ y ∈ inorder l', y ∈ inorder (Node.node li ll lr false) := by
          intro y hy
          rw [hinol]
          simp [hy]
        refine ⟨.node i l' r true, true, d, ?_, Bal.black hBl' hr, by simp, ?_,
          ?_, ?_⟩
        · simp only [deleteMinGas, hst, hrec, hfix]
        · exact ordered_rebuildL hord hsub hordl'
        · simp [hinol]
        · exact min_rebuild H hord (by rw [hinol]; simp) hminl


/-- Replace the root item by a minimum of the right subtree, shrinking the
right subtree to members of itself: order is rebuilt. -/
theorem ordered_substRoot {comp : α → α → Bool} (H : SWOp comp)
    {i mm : Item α} {l r r' : Node α} {b b' : Bool}
    (ho : ordered comp (.node i l r b) = true)
    (hm : mm ∈ inorder r)
    (hmin : ∀ y ∈ inorder r, less comp y mm = false)
    (hsub : ∀ y ∈ inorder r', y ∈ inorder r)
    (hor : ordered comp r' = true) :
    ordered comp (.node mm l r' b') = true := by
  rw [ordered_node] at ho ⊢
  simp only [Bool.and_eq_true] at ho ⊢
  refine ⟨⟨⟨?_, ?_⟩, ho.1.2⟩, hor⟩
  · rw [allN_iff_mem]
    intro y hy
    have h1 : less comp i y = false := by
      have := ho.1.1.1
      rw [allN_iff_mem] at this
      simpa using this y hy
    have h2 : less comp mm i = false := by
      have := ho.1.1.2
      rw [allN_iff_mem] at this
      simpa using this mm hm
    simp [less_negTrans H h2 h1]
  · rw [allN_iff_mem]
    intro y hy
    simp [hmin y (hsub y hy)]

/-- If the key is below the node item and no left-subtree element is
equivalent to it, no element of the node is equivalent to it. -/
theorem noneProp_left {comp : α → α → Bool} (H : SWOp comp)
    {i k : Item α} {l r : Node α} {b : Bool}
    (ho : ordered comp (.node i l r b) = true)
    (hk : less comp k i = true)
    (hl : ∀ y ∈ inorder l, equivI comp y k = false) :
    ∀ y ∈ inorder (Node.node i l r b), equivI comp y k = false := by
  intro y hy
  simp only [inorder_node, List.mem_append, List.mem_cons] at hy
  rcases hy with hy | (rfl | hy)
  · exact hl y hy
  · simp [hk]
  · have hyi : less comp y i = false := by
      rw [ordered_node] at ho
      simp only [Bool.and_eq_true] at ho
      have := ho.1.1.2
      rw [allN_iff_mem] at this
      simpa using this y hy
    simp [less_of_less_of_notGT H hk hyi]

/-- If the node item is below the key and no right-subtree element is
equivalent to it, no element of the node is equivalent to it. -/
theorem noneProp_right {comp : α → α → Bool} (H : SWOp comp)
    {i k : Item α} {l r : Node α} {b : Bool}
    (ho : ordered comp (.node i l r b) = true)
    (hk : less comp i k = true)
    (hr : ∀ y ∈ inorder r, equivI comp y k = false) :
    ∀ y ∈ inorder (Node.node i l r b), equivI comp y k = false := by
  intro y hy
  simp only [inorder_node, List.mem_append, List.mem_cons] at hy
  rcases hy with hy | (rfl | hy)
  · have hiy : less comp i y = false := by
      rw [ordered_node] at ho
      simp only [Bool.and_eq_true] at ho
      have := ho.1.1.1
      rw [allN_iff_mem] at this
      simpa using this y hy
    simp [less_of_notLT_of_less H hiy hk]
  · simp [hk]
  · exact hr y hy

/-- Decompose pairwise distinctness over a node listing. -/
theorem pairwise_node {β : Type} {R : β → β → Prop} {L₁ L₂ : List β} {x : β}
    (hp : List.Pairwise R (L₁ ++ x :: L₂)) :
    List.Pairwise R L₁ ∧ List.Pairwise R L₂ ∧ (∀ a ∈ L₁, R a x) := by
  rw [List.pairwise_append] at hp
  rw [List.pairwise_cons] at hp
  exact ⟨hp.1, hp.2.1.2, fun a ha => hp.2.2 a ha x (by simp)⟩


/-- Specification of one delete step's result listing: either nothing was
deleted, the listing is unchanged and no stored item is equivalent to the
key, or the returned item is equivalent to the key and was removed from
one position of the listing. -/
def delSpec (comp : α → α → Bool) (k : Item α) (res : Option (Item α))
    (A B : Node α) : Prop :=
  (res = none ∧ inorder A = inorder B ∧
    (∀ y ∈ inorder B, equivI comp y k = false)) ∨
  (∃ d L₁ L₂, res = some d ∧ equivI comp d k = true ∧
    inorder B = L₁ ++ d :: L₂ ∧ inorder A = L₁ ++ L₂)

theorem delSpec_sub {comp : α → α → Bool} {k : Item α}
    {res : Option (Item α)} {A B : Node α}
    (hsp : delSpec comp k res A B) : ∀ y ∈ inorder A, y ∈ inorder B := by
  rcases hsp with ⟨_, he, _⟩ | ⟨d, L₁, L₂, _, _, hB, hA⟩
  · rw [he]
    exact fun y hy => hy
  · rw [hA, hB]
    intro y hy
    simp only [List.mem_append, List.mem_cons] at hy ⊢
    tauto

/-- Lift the result specification from a left-subtree recursion to the
whole node. -/
theorem delSpec_left {comp : α → α → Bool} (H : SWOp comp) {k i₂ : Item α}
    {l₂ r₂ l₃ A B : Node α} {b₂ : Bool} {res : Option (Item α)}
    (hord₂ : ordered comp (.node i₂ l₂ r₂ b₂) = true)
    (hk : less comp k i₂ = true)
    (hsp : delSpec comp k res l₃ l₂)
    (hA : inorder A = inorder l₃ ++ i₂ :: inorder r₂)
    (hB : inorder B = inorder l₂ ++ i₂ :: inorder r₂) :
    delSpec comp k res A B := by
  rcases hsp with ⟨hn, he, hprop⟩ | ⟨d, L₁, L₂, hs, heq, hspl, he⟩
  · refine Or.inl ⟨hn, by rw [hA, hB, he], ?_⟩
    intro y hy
    rw [hB] at hy
    exact noneProp_left H hord₂ hk hprop y (by simpa using hy)
  · refine Or.inr ⟨d, L₁, L₂ ++ i₂ :: inorder r₂, hs, heq, ?_, ?_⟩
    · rw [hB, hspl]
      simp
    · rw [hA, he]
      simp

/-- Lift the result specification from a right-subtree recursion to the
whole node. -/
theorem delSpec_right {comp : α → α → Bool} (H : SWOp comp) {k i₂ : Item α}
    {l₂ r₂ r₃ A B : Node α} {b₂ : Bool} {res : Option (Item α)}
    (hord₂ : ordered comp (.node i₂ l₂ r₂ b₂) = true)
    (hk : less comp i₂ k = true)
    (hsp : delSpec comp k res r₃ r₂)
    (hA : inorder A = inorder l₂ ++ i₂ :: inorder r₃)
    (hB : inorder B = inorder l₂ ++ i₂ :: inorder r₂) :
    delSpec comp k res A B := by
  rcases hsp with ⟨hn, he, hprop⟩ | ⟨d, L₁, L₂, hs, heq, hspl, he⟩
  · refine Or.inl ⟨hn, by rw [hA, hB, he], ?_⟩
    intro y hy
    rw [hB] at hy
    exact noneProp_right H hord₂ hk hprop y (by simpa using hy)
  · refine Or.inr ⟨d, inorder l₂ ++ i₂ :: L₁, L₂, hs, heq, ?_, ?_⟩
    · rw [hB, hspl]
      simp
    · rw [hA, he]
      simp

/-- The result specification in the successor-substitution case: the node
item is returned, the right subtree lost its minimum which became the new
node item. -/
theorem delSpec_subst {comp : α → α → Bool} {k i₂ mm : Item α}
    (l₂ r₂ : Node α) {r₃ A B : Node α}
    (hk1 : less comp i₂ k = false) (hk2 : less comp k i₂ = false)
    (hino : inorder r₂ = mm :: inorder r₃)
    (hA : inorder A = inorder l₂ ++ mm :: inorder r₃)
    (hB : inorder B = inorder l₂ ++ i₂ :: inorder r₂) :
    delSpec comp k (some i₂) A B :=
  Or.inr ⟨i₂, inorder l₂, inorder r₂, rfl, by simp [hk1, hk2], hB,
    by rw [hA, hino]⟩


/-- The key hypothesis threaded through `delete_aux`: either the stored
items are pairwise inequivalent, or no stored item is equivalent to the
key being deleted. Either variant routes moveRedRight's inner-rotation
frame to the right. -/
def okKey (comp : α → α → Bool) (k : Item α) (h : Node α) : Prop :=
  List.Pairwise (fun a b => equivI comp a b = false) (inorder h) ∨
  (∀ y ∈ inorder h, equivI comp y k = false)

theorem okKey_of_inorder_eq {comp : α → α → Bool} {k : Item α}
    {A B : Node α} (he : inorder A = inorder B)
    (h : okKey comp k B) : okKey comp k A := by
  unfold okKey
  rw [he]
  exact h

theorem okKey_left {comp : α → α → Bool} {k i : Item α} {l r : Node α}
    {b : Bool} (h : okKey comp k (.node i l r b)) : okKey comp k l := by
  rcases h with hp | ha
  · left
    simp only [inorder_node] at hp
    exact (pairwise_node hp).1
  · right
    intro y hy
    exact ha y (by simp [hy])

theorem okKey_right {comp : α → α → Bool} {k i : Item α} {l r : Node α}
    {b : Bool} (h : okKey comp k (.node i l r b)) : okKey comp k r := by
  rcases h with hp | ha
  · left
    simp only [inorder_node] at hp
    exact (pairwise_node hp).2.1
  · right
    intro y hy
    exact ha y (by simp [hy])

/-- In moveRedRight's inner-rotation frame the promoted left item is
strictly below the key: under pairwise-inequivalent items it sits strictly
below the old root which the key is not below, and under an absent key it
cannot be equivalent to the key while the key is not below it. -/
theorem caseB_key_right {comp : α → α → Bool} (H : SWOp comp)
    {k i li : Item α} {ll lr r : Node α} {b lb : Bool}
    (hord : ordered comp (.node i (.node li ll lr lb) r b) = true)
    (hOK : okKey comp k (.node i (.node li ll lr lb) r b))
    (hki : less comp k i = false) : less comp li k = true := by
  have hil : less comp i li = false := by
    rw [ordered_node] at hord
    simp only [Bool.and_eq_true] at hord
    have h2 := hord.1.1.1
    rw [allN_iff_mem] at h2
    simpa using h2 li (by simp)
  have hkli : less comp k li = false := less_negTrans H hki hil
  rcases hOK with hp | ha
  · simp only [inorder_node] at hp
    have hdkli : equivI comp li i = false :=
      (pairwise_node hp).2.2 li (by simp)
    have hlii : less comp li i = true := by
      rcases equivI_eq_false.mp hdkli with h1 | h1
      · exact h1
      · exact absurd h1 (by simp [hil])
    exact less_of_less_of_notGT H hlii hki
  · have h1 := ha li (by simp)
    rcases equivI_eq_false.mp h1 with h2 | h2
    · exact h2
    · exact absurd h2 (by simp [hkli])

/-- delete down a frame: from a frame satisfying the red-or-red-left
precondition (or the tolerated black-with-red-right shape produced by the
inner rotation of moveRedRight, with the key known not below the root),
the recursive delete succeeds, preserves black-height and order, and
removes exactly one equivalent item or nothing. -/
theorem delete_aux {comp : α → α → Bool} (H : SWOp comp) :
    ∀ (fuel : Nat) (k : Item α) (h : Node α) (c : Bool) (n : Nat),
    h.size ≤ fuel →
    ((Bal h c n ∧ (isRed h = true ∨ isRed h.left = true)) ∨
     (c = true ∧ ∃ i l r' m, n = m + 1 ∧ h = .node i l r' true ∧
        Bal l true m ∧ Bal r' false m ∧ less comp k i = false)) →
    ordered comp h = true → okKey comp k h →
    ∃ h' c' res, deleteGas comp fuel h k = .ok (h', res) ∧
      Bal h' c' n ∧ (c = true → c' = true) ∧ ordered comp h' = true ∧
      delSpec comp k res h' h := by
  intro fuel
  induction fuel with
  | zero =>
    intro k h c n hsz hIn hord hOK
    rcases hIn with ⟨HB, hS⟩ | ⟨_, i, l, r', m, _, rfl, _⟩
    · cases HB with
      | nil => simp at hS
      | red hl hr => simp [Node.size] at hsz
      | black hl hr => simp [Node.size] at hsz
    · simp [Node.size] at hsz
  | succ fuel ih =>
    intro k h c n hsz hIn hord hOK
    rcases hIn with ⟨HB, hS⟩ | ⟨rfl, i, l, r', m, rfl, rfl, hbl, hbr, hki⟩
    · cases HB with
      | @red i l r n hl hr =>
        by_cases hki : less comp k i = true
        · -- descend left
          cases l with
          | nil =>

            refine ⟨.node i .nil r false, false, none, ?_, Bal.red hl hr,
              by simp, hord, Or.inl ⟨rfl, rfl, ?_⟩⟩
            · simp [deleteGas, hki]
            · exact noneProp_left H hord hki (by simp)
          | node li ll lr lb =>
            cases hl with
            | @black _ _ _ m cll hll hlr =>
              by_cases hcll : isRed ll = true
              · -- spare red below on the left: moveRedLeft does not fire

                have hst : mrlStep (.node i (.node li ll lr true) r false) =
                    .ok (.node i (.node li ll lr true) r false) := by
                  simp [mrlStep, hcll]
                have hszl : (Node.node li ll lr true).size ≤ fuel := by
                  simp [Node.size] at hsz ⊢
                  omega
                obtain ⟨l₃, c₃, res, hrec, hB₃, himp, hord₃, hsp⟩ :=
                  ih k (.node li ll lr true) true (m + 1) hszl
                    (Or.inl ⟨Bal.black hll hlr, Or.inr (by simpa using hcll)⟩)
                    (ordered_left hord) (okKey_left hOK)
                have hc₃ : c₃ = true := himp rfl
                subst hc₃
                have hfix : fixUp (.node i l₃ r false) = .ok (.node i l₃ r false) :=
                  fixUp_noop (by simp [hr.isRed_eq]) (by simp [hB₃.isRed_eq])
                refine ⟨.node i l₃ r false, false, res, ?_, Bal.red hB₃ hr,
                  by simp, ?_, ?_⟩
                · simp only [deleteGas]
                  rw [if_pos hki]
                  simp only [hst, hrec, hfix]
                · exact ordered_rebuildL hord (delSpec_sub hsp) hord₃
                · exact delSpec_left H hord hki hsp (by simp) (by simp)
              · have hcll' : isRed ll = false := by simpa using hcll
                cases cll with
                | false => simp [hll.isRed_eq] at hcll'
                | true =>
                cases hr with
                | @black ri rl rr _ crl hrl hrr =>
                  by_cases hcrl : isRed rl = true
                  · -- inner rotation case of moveRedLeft

                    cases crl with
                    | true => simp [hrl.isRed_eq] at hcrl
                    | false =>
                    obtain ⟨rli, rll, rlr, rfl, hrll, hrlr⟩ := Bal_red_shape hrl
                    have hst : mrlStep (.node i (.node li ll lr true)
                        (.node ri (.node rli rll rlr false) rr true) false) =
                        .ok (.node rli (.node i (.node li ll lr false) rll true)
                          (.node ri rlr rr true) false) := by
                      rw [mrlStep]
                      rw [if_pos (by simp [hcll'])]
                      exact moveRedLeft_rotate
                    have hord₂ : ordered comp (.node rli
                        (.node i (.node li ll lr false) rll true)
                        (.node ri rlr rr true) false) = true :=
                      ordered_of_inorder_eq H (mrlStep_inorder hst) hord
                    have hOK₂ : okKey comp k (Node.node rli
                          (.node i (.node li ll lr false) rll true)
                          (.node ri rlr rr true) false) :=
                        okKey_of_inorder_eq (mrlStep_inorder hst) hOK
                    have hszA : (Node.node i (.node li ll lr false) rll true).size ≤
                        fuel := by
                      simp [Node.size] at hsz ⊢
                      omega
                    have hkrli : less comp k rli = true := by
                      have h2 : allN (fun y => !less comp y i)
                          (Node.node ri (.node rli rll rlr false) rr true) = true := by
                        rw [ordered_node] at hord
                        simp only [Bool.and_eq_true] at hord
                        exact hord.1.1.2
                      rw [allN_iff_mem] at h2
                      have h1 : less comp rli i = false := by
                        simpa using h2 rli (by simp)
                      exact less_of_less_of_notGT H hki h1
                    obtain ⟨l₃, c₃, res, hrec, hB₃, himp, hord₃, hsp⟩ :=
                      ih k (.node i (.node li ll lr false) rll true) true (m + 1) hszA
                        (Or.inl ⟨Bal.black (Bal.red hll hlr) hrll, Or.inr (by simp)⟩)
                        (ordered_left hord₂)
                        (okKey_left hOK₂)
                    have hc₃ : c₃ = true := himp rfl
                    subst hc₃
                    have hfix : fixUp (.node rli l₃ (.node ri rlr rr true) false) =
                        .ok (.node rli l₃ (.node ri rlr rr true) false) :=
                      fixUp_noop (by simp) (by simp [hB₃.isRed_eq])
                    refine ⟨.node rli l₃ (.node ri rlr rr true) false, false, res, ?_,
                      Bal.red hB₃ (Bal.black hrlr hrr), by simp, ?_, ?_⟩
                    · simp only [deleteGas]
                      rw [if_pos hki]
                      simp only [hst, hrec, hfix]
                    · exact ordered_rebuildL hord₂ (delSpec_sub hsp) hord₃
                    · refine delSpec_left H hord₂ hkrli hsp (by simp) ?_
                      rw [← mrlStep_inorder hst]
                      simp
                  · -- plain flip case of moveRedLeft

                    have hcrl' : isRed rl = false := by simpa using hcrl
                    cases crl with
                    | false => simp [hrl.isRed_eq] at hcrl'
                    | true =>
                    have hst : mrlStep (.node i (.node li ll lr true)
                        (.node ri rl rr true) false) =
                        .ok (.node i (.node li ll lr false)
                          (.node ri rl rr false) true) := by
                      rw [mrlStep]
                      rw [if_pos (by simp [hcll'])]
                      exact moveRedLeft_plain hcrl'
                    have hord₂ : ordered comp (.node i (.node li ll lr false)
                        (.node ri rl rr false) true) = true :=
                      ordered_of_inorder_eq H (mrlStep_inorder hst) hord
                    have hOK₂ : okKey comp k (Node.node i (.node li ll lr false)
                          (.node ri rl rr false) true) :=
                        okKey_of_inorder_eq (mrlStep_inorder hst) hOK
                    have hszA : (Node.node li ll lr false).size ≤ fuel := by
                      simp [Node.size] at hsz ⊢
                      omega
                    obtain ⟨l₃, c₃, res, hrec, hB₃, _, hord₃, hsp⟩ :=
                      ih k (.node li ll lr false) false m hszA
                        (Or.inl ⟨Bal.red hll hlr, Or.inl (by simp)⟩)
                        (ordered_left hord₂)
                        (okKey_left hOK₂)
                    have hordpre : ordered comp
                        (.node i l₃ (.node ri rl rr false) true) = true :=
                      ordered_rebuildL hord₂ (delSpec_sub hsp) hord₃
                    have hBspec : delSpec comp k res
                        (.node i l₃ (.node ri rl rr false) true)
                        (.node i (.node li ll lr true)
                          (.node ri rl rr true) false) := by
                      refine delSpec_left H hord₂ hki hsp (by simp) ?_
                      rw [← mrlStep_inorder hst]
                      simp
                    cases c₃ with
                    | false =>
                      obtain ⟨xi, xl, xr, rfl, hxl, hxr⟩ := Bal_red_shape hB₃
                      have hfix : fixUp (.node i (.node xi xl xr false)
                          (.node ri rl rr false) true) =
                          .ok (.node i (.node xi xl xr true)
                            (.node ri rl rr true) false) := fixUp_bothRed
                      refine ⟨.node i (.node xi xl xr true) (.node ri rl rr true) false,
                        false, res, ?_,
                        Bal.red (Bal.black hxl hxr) (Bal.black hrl hrr),
                        by simp, ?_, ?_⟩
                      · simp only [deleteGas]
                        rw [if_pos hki]
                        simp only [hst, hrec, hfix]
                      · exact ordered_of_inorder_eq H (by simp) hordpre
                      · refine delSpec_left H hord₂ hki hsp (by simp) ?_
                        rw [← mrlStep_inorder hst]
                        simp
                    | true =>
                      have hfix : fixUp (.node i l₃ (.node ri rl rr false) true) =
                          .ok (.node ri (.node i l₃ rl false) rr true) :=
                        fixUp_redRight (by simp [hB₃.isRed_eq])
                          (by simp [hrr.isRed_eq])
                      refine ⟨.node ri (.node i l₃ rl false) rr true, true, res, ?_,
                        Bal.black (Bal.red hB₃ hrl) hrr, by simp, ?_, ?_⟩
                      · simp only [deleteGas]
                        rw [if_pos hki]
                        simp only [hst, hrec, hfix]
                      · exact ordered_of_inorder_eq H (by simp) hordpre
                      · refine delSpec_left H hord₂ hki hsp (by simp) ?_
                        rw [← mrlStep_inorder hst]
                        simp
        · -- at or right of the node
          have hki' : less comp k i = false := by simpa using hki
          cases r with
          | nil =>

            cases hr
            have hln : l = .nil := Bal_true_zero hl
            subst hln
            by_cases hik : less comp i k = true
            · refine ⟨.node i .nil .nil false, false, none, ?_,
                Bal.red Bal.nil Bal.nil, by simp, hord, Or.inl ⟨rfl, rfl, ?_⟩⟩
              · simp only [deleteGas]
                rw [if_neg hki]
                simp [deleteGas, hik, fixUp]
              · exact noneProp_right H hord hik (by simp)
            · have hik' : less comp i k = false := by simpa using hik
              refine ⟨.nil, true, some i, ?_, Bal.nil, by simp, by simp, ?_⟩
              · simp only [deleteGas]
                rw [if_neg hki]
                simp [hik']
              · exact Or.inr ⟨i, [], [], rfl, by simp [hik', hki'], by simp, by simp⟩
          | node ri rl rr rb =>
            cases hr with
            | @black _ _ _ m' crl hrl hrr =>
              cases hl with
              | @black li ll lr _ cll hll hlr =>
                by_cases hcrl : isRed rl = true
                · -- red grandchild on the right: moveRedRight does not fire

                  by_cases hik : less comp i k = true
                  · have hszr : (Node.node ri rl rr true).size ≤ fuel := by
                      simp [Node.size] at hsz ⊢
                      omega
                    obtain ⟨r₃, c₃, res, hrec, hB₃, himp, hord₃, hsp⟩ :=
                      ih k (.node ri rl rr true) true (m' + 1) hszr
                        (Or.inl ⟨Bal.black hrl hrr, Or.inr (by simpa using hcrl)⟩)
                        (ordered_right hord) (okKey_right hOK)
                    have hc₃ : c₃ = true := himp rfl
                    subst hc₃
                    have hfix : fixUp (.node i (.node li ll lr true) r₃ false) =
                        .ok (.node i (.node li ll lr true) r₃ false) :=
                      fixUp_noop (by simp [hB₃.isRed_eq]) (by simp)
                    refine ⟨.node i (.node li ll lr true) r₃ false, false, res, ?_,
                      Bal.red (Bal.black hll hlr) hB₃, by simp, ?_, ?_⟩
                    · simp only [deleteGas]
                      rw [if_neg hki]
                      simp [hik, hcrl, hrec, hfix]
                    · exact ordered_rebuildR hord (delSpec_sub hsp) hord₃
                    · exact delSpec_right H hord hik hsp (by simp) (by simp)
                  · have hik' : less comp i k = false := by simpa using hik
                    obtain ⟨r₃, c₃, mm, hdm, hBr₃, himp', hordr₃, hino, hmin⟩ :=
                      deleteMin_aux H (Node.node ri rl rr true).size
                        (.node ri rl rr true) true (m' + 1) le_rfl
                        (Bal.black hrl hrr) (ordered_right hord)
                        (Or.inr (by simpa using hcrl))
                    have hc₃ : c₃ = true := himp' rfl
                    subst hc₃
                    have hfix : fixUp (.node mm (.node li ll lr true) r₃ false) =
                        .ok (.node mm (.node li ll lr true) r₃ false) :=
                      fixUp_noop (by simp [hBr₃.isRed_eq]) (by simp)
                    refine ⟨.node mm (.node li ll lr true) r₃ false, false, some i, ?_,
                      Bal.red (Bal.black hll hlr) hBr₃, by simp, ?_, ?_⟩
                    · simp only [deleteGas]
                      rw [if_neg hki]
                      simp [hik', hcrl, deleteMinN, hdm, hfix]
                    · exact ordered_substRoot H hord (by rw [hino]; simp) hmin
                        (fun y hy => by rw [hino]; simp [hy]) hordr₃
                    · exact delSpec_subst (.node li ll lr true) (.node ri rl rr true) hik' hki' hino (by simp) (by simp)
                · have hcrl' : isRed rl = false := by simpa using hcrl
                  cases crl with
                  | false => simp [hrl.isRed_eq] at hcrl'
                  | true =>
                  by_cases hcll : isRed ll = true
                  · -- inner rotation case of moveRedRight

                    cases cll with
                    | true => simp [hll.isRed_eq] at hcll
                    | false =>
                    obtain ⟨lli, lll, llr, rfl, hlll, hllr⟩ := Bal_red_shape hll
                    have hmrr : moveRedRight (.node i
                        (.node li (.node lli lll llr false) lr true)
                        (.node ri rl rr true) false) =
                        .ok (.node li (.node lli lll llr true)
                          (.node i lr (.node ri rl rr false) true) false) := by
                      simpa using moveRedRight_rotate
                    have hord₂ : ordered comp (.node li (.node lli lll llr true)
                        (.node i lr (.node ri rl rr false) true) false) = true :=
                      ordered_of_inorder_eq H (moveRedRight_inorder hmrr) hord
                    have hOK₂ : okKey comp k (Node.node li (.node lli lll llr true)
                          (.node i lr (.node ri rl rr false) true) false) :=
                        okKey_of_inorder_eq (moveRedRight_inorder hmrr) hOK
                    have hszr : (Node.node i lr (.node ri rl rr false) true).size ≤
                        fuel := by
                      simp [Node.size] at hsz ⊢
                      omega
                    have hlik : less comp li k = true :=
                      caseB_key_right H hord hOK hki'
                    obtain ⟨r₃, c₃, res, hrec, hB₃, himp, hord₃, hsp⟩ :=
                      ih k (.node i lr (.node ri rl rr false) true) true (m' + 1) hszr
                        (Or.inr ⟨rfl, i, lr, .node ri rl rr false, m', rfl, rfl, hlr,
                          Bal.red hrl hrr, hki'⟩)
                        (ordered_right hord₂)
                        (okKey_right hOK₂)
                    have hc₃ : c₃ = true := himp rfl
                    subst hc₃
                    have hfix : fixUp (.node li (.node lli lll llr true) r₃ false) =
                        .ok (.node li (.node lli lll llr true) r₃ false) :=
                      fixUp_noop (by simp [hB₃.isRed_eq]) (by simp)
                    refine ⟨.node li (.node lli lll llr true) r₃ false, false, res, ?_,
                      Bal.red (Bal.black hlll hllr) hB₃, by simp, ?_, ?_⟩
                    · simp only [deleteGas]
                      rw [if_neg hki]
                      simp [hcrl', hmrr, hlik, hrec, hfix]
                    · exact ordered_rebuildR hord₂ (delSpec_sub hsp) hord₃
                    · refine delSpec_right H hord₂ hlik hsp (by simp) ?_
                      rw [← moveRedRight_inorder hmrr]
                      simp
                  · -- plain flip case of moveRedRight

                    have hcll' : isRed ll = false := by simpa using hcll
                    cases cll with
                    | false => simp [hll.isRed_eq] at hcll'
                    | true =>
                    have hmrr : moveRedRight (.node i (.node li ll lr true)
                        (.node ri rl rr true) false) =
                        .ok (.node i (.node li ll lr false)
                          (.node ri rl rr false) true) := by
                      simpa using moveRedRight_plain hcll'
                    have hord₂ : ordered comp (.node i (.node li ll lr false)
                        (.node ri rl rr false) true) = true :=
                      ordered_of_inorder_eq H (moveRedRight_inorder hmrr) hord
                    have hOK₂ : okKey comp k (Node.node i (.node li ll lr false)
                          (.node ri rl rr false) true) :=
                        okKey_of_inorder_eq (moveRedRight_inorder hmrr) hOK
                    by_cases hik : less comp i k = true
                    · have hszr : (Node.node ri rl rr false).size ≤ fuel := by
                        simp [Node.size] at hsz ⊢
                        omega
                      obtain ⟨r₃, c₃, res, hrec, hB₃, _, hord₃, hsp⟩ :=
                        ih k (.node ri rl rr false) false m' hszr
                          (Or.inl ⟨Bal.red hrl hrr, Or.inl (by simp)⟩)
                          (ordered_right hord₂)
                          (okKey_right hOK₂)
                      have hordpre : ordered comp
                          (.node i (.node li ll lr false) r₃ true) = true :=
                        ordered_rebuildR hord₂ (delSpec_sub hsp) hord₃
                      cases c₃ with
                      | false =>
                        obtain ⟨xi, xl, xr, rfl, hxl, hxr⟩ := Bal_red_shape hB₃
                        have hfix : fixUp (.node i (.node li ll lr false)
                            (.node xi xl xr false) true) =
                            .ok (.node i (.node li ll lr true)
                              (.node xi xl xr true) false) := fixUp_bothRed
                        refine ⟨.node i (.node li ll lr true)
                          (.node xi xl xr true) false, false, res, ?_,
                          Bal.red (Bal.black hll hlr) (Bal.black hxl hxr),
                          by simp, ?_, ?_⟩
                        · simp only [deleteGas]
                          rw [if_neg hki]
                          simp [hcrl', hmrr, hik, hrec, hfix]
                        · exact ordered_of_inorder_eq H (by simp) hordpre
                        · refine delSpec_right H hord₂ hik hsp (by simp) ?_
                          rw [← moveRedRight_inorder hmrr]
                          simp
                      | true =>
                        have hfix : fixUp (.node i (.node li ll lr false) r₃ true) =
                            .ok (.node i (.node li ll lr false) r₃ true) :=
                          fixUp_noop (by simp [hB₃.isRed_eq]) (by simp [hcll'])
                        refine ⟨.node i (.node li ll lr false) r₃ true, true, res, ?_,
                          Bal.black (Bal.red hll hlr) hB₃, by simp, hordpre, ?_⟩
                        · simp only [deleteGas]
                          rw [if_neg hki]
                          simp [hcrl', hmrr, hik, hrec, hfix]
                        · refine delSpec_right H hord₂ hik hsp (by simp) ?_
                          rw [← moveRedRight_inorder hmrr]
                          simp
                    · have hik' : less comp i k = false := by simpa using hik
                      obtain ⟨r₃, c₃, mm, hdm, hBr₃, _, hordr₃, hino, hmin⟩ :=
                        deleteMin_aux H (Node.node ri rl rr false).size
                          (.node ri rl rr false) false m' le_rfl
                          (Bal.red hrl hrr) (ordered_right hord₂)
                          (Or.inl (by simp))
                      have hordpre : ordered comp
                          (.node mm (.node li ll lr false) r₃ true) = true :=
                        ordered_substRoot H hord₂ (by rw [hino]; simp) hmin
                          (fun y hy => by rw [hino]; simp [hy]) hordr₃
                      cases c₃ with
                      | false =>
                        obtain ⟨xi, xl, xr, rfl, hxl, hxr⟩ := Bal_red_shape hBr₃
                        have hfix : fixUp (.node mm (.node li ll lr false)
                            (.node xi xl xr false) true) =
                            .ok (.node mm (.node li ll lr true)
                              (.node xi xl xr true) false) := fixUp_bothRed
                        refine ⟨.node mm (.node li ll lr true)
                          (.node xi xl xr true) false, false, some i, ?_,
                          Bal.red (Bal.black hll hlr) (Bal.black hxl hxr),
                          by simp, ?_, ?_⟩
                        · simp only [deleteGas]
                          rw [if_neg hki]
                          simp [hcrl', hmrr, hik', deleteMinN, hdm, hfix]
                        · exact ordered_of_inorder_eq H (by simp) hordpre
                        · refine delSpec_subst (.node li ll lr false)
                            (.node ri rl rr false) hik' hki' hino (by simp) ?_
                          rw [← moveRedRight_inorder hmrr]
                          simp
                      | true =>
                        have hfix : fixUp (.node mm (.node li ll lr false) r₃ true) =
                            .ok (.node mm (.node li ll lr false) r₃ true) :=
                          fixUp_noop (by simp [hBr₃.isRed_eq]) (by simp [hcll'])
                        refine ⟨.node mm (.node li ll lr false) r₃ true, true, some i,
                          ?_, Bal.black (Bal.red hll hlr) hBr₃, by simp, hordpre, ?_⟩
                        · simp only [deleteGas]
                          rw [if_neg hki]
                          simp [hcrl', hmrr, hik', deleteMinN, hdm, hfix]
                        · refine delSpec_subst (.node li ll lr false)
                            (.node ri rl rr false) hik' hki' hino (by simp) ?_
                          rw [← moveRedRight_inorder hmrr]
                          simp
      | @black i l r m cl hl hr =>
        have hSl : isRed l = true := by
          rcases hS with hS | hS
          · simp at hS
          · simpa using hS
        cases cl with
        | true => simp [hl.isRed_eq] at hSl
        | false =>
        obtain ⟨li, ll, lr, rfl, hll, hlr⟩ := Bal_red_shape hl
        by_cases hki : less comp k i = true
        · -- descend left past the red left child

          have hst : mrlStep (.node i (.node li ll lr false) r true) =
              .ok (.node i (.node li ll lr false) r true) := by
            simp [mrlStep]
          have hszl : (Node.node li ll lr false).size ≤ fuel := by
            simp [Node.size] at hsz ⊢
            omega
          obtain ⟨l₃, c₃, res, hrec, hB₃, _, hord₃, hsp⟩ :=
            ih k (.node li ll lr false) false m hszl
              (Or.inl ⟨Bal.red hll hlr, Or.inl (by simp)⟩)
              (ordered_left hord)
              (okKey_left hOK)
          have hguard2 : (isRed l₃ && isRed l₃.left) = false := by
            cases c₃ with
            | false =>
              obtain ⟨xi, xl, xr, hsh, hxl, _⟩ := Bal_red_shape hB₃
              subst hsh
              simp [hxl.isRed_eq]
            | true => simp [hB₃.isRed_eq]
          have hfix : fixUp (.node i l₃ r true) = .ok (.node i l₃ r true) :=
            fixUp_noop (by simp [hr.isRed_eq]) hguard2
          refine ⟨.node i l₃ r true, true, res, ?_, Bal.black hB₃ hr, by simp,
            ?_, ?_⟩
          · simp only [deleteGas]
            rw [if_pos hki]
            simp only [hst, hrec, hfix]
          · exact ordered_rebuildL hord (delSpec_sub hsp) hord₃
          · exact delSpec_left H hord hki hsp (by simp) (by simp)
        · -- rotate the red left child to the top

          have hki' : less comp k i = false := by simpa using hki
          have hrot : rotateRight (.node i (.node li ll lr false) r true) =
              .ok (.node li ll (.node i lr r false) true) := by
            simp [rotateRight]
          have hord₁ : ordered comp (.node li ll (.node i lr r false) true) =
              true := ordered_of_inorder_eq H (rotateRight_inorder hrot) hord
          have hOK₁ : okKey comp k (Node.node li ll (.node i lr r false) true) :=
              okKey_of_inorder_eq (rotateRight_inorder hrot) hOK
          have hkli : less comp k li = false := by
            have hil : less comp i li = false := by
              have h2 : allN (fun y => !less comp i y)
                  (Node.node li ll lr false) = true := by
                rw [ordered_node] at hord
                simp only [Bool.and_eq_true] at hord
                exact hord.1.1.1
              rw [allN_iff_mem] at h2
              simpa using h2 li (by simp)
            exact less_negTrans H hki' hil
          by_cases hlik : less comp li k = true
          · have hszr : (Node.node i lr r false).size ≤ fuel := by
              simp [Node.size] at hsz ⊢
              omega
            obtain ⟨r₃, c₃, res, hrec, hB₃, _, hord₃, hsp⟩ :=
              ih k (.node i lr r false) false m hszr
                (Or.inl ⟨Bal.red hlr hr, Or.inl (by simp)⟩)
                (ordered_right hord₁)
                (okKey_right hOK₁)
            have hordpre : ordered comp (.node li ll r₃ true) = true :=
              ordered_rebuildR hord₁ (delSpec_sub hsp) hord₃
            cases c₃ with
            | false =>
              obtain ⟨xi, xl, xr, rfl, hxl, hxr⟩ := Bal_red_shape hB₃
              have hfix : fixUp (.node li ll (.node xi xl xr false) true) =
                  .ok (.node xi (.node li ll xl false) xr true) :=
                fixUp_redRight (by simp [hll.isRed_eq]) (by simp [hxr.isRed_eq])
              refine ⟨.node xi (.node li ll xl false) xr true, true, res, ?_,
                Bal.black (Bal.red hll hxl) hxr, by simp, ?_, ?_⟩
              · simp only [deleteGas]
                rw [if_neg hki]
                simp [hrot, hlik, hrec, hfix]
              · exact ordered_of_inorder_eq H (by simp) hordpre
              · refine delSpec_right H hord₁ hlik hsp (by simp) ?_
                rw [← rotateRight_inorder hrot]
                simp
            | true =>
              have hfix : fixUp (.node li ll r₃ true) =
                  .ok (.node li ll r₃ true) :=
                fixUp_noop (by simp [hB₃.isRed_eq]) (by simp [hll.isRed_eq])
              refine ⟨.node li ll r₃ true, true, res, ?_, Bal.black hll hB₃,
                by simp, hordpre, ?_⟩
              · simp only [deleteGas]
                rw [if_neg hki]
                simp [hrot, hlik, hrec, hfix]
              · refine delSpec_right H hord₁ hlik hsp (by simp) ?_
                rw [← rotateRight_inorder hrot]
                simp
          · have hlik' : less comp li k = false := by simpa using hlik
            obtain ⟨r₃, c₃, mm, hdm, hBr₃, _, hordr₃, hino, hmin⟩ :=
              deleteMin_aux H (Node.node i lr r false).size (.node i lr r false)
                false m le_rfl (Bal.red hlr hr) (ordered_right hord₁)
                (Or.inl (by simp))
            have hordpre : ordered comp (.node mm ll r₃ true) = true :=
              ordered_substRoot H hord₁ (by rw [hino]; simp) hmin
                (fun y hy => by rw [hino]; simp [hy]) hordr₃
            cases c₃ with
            | false =>
              obtain ⟨xi, xl, xr, rfl, hxl, hxr⟩ := Bal_red_shape hBr₃
              have hfix : fixUp (.node mm ll (.node xi xl xr false) true) =
                  .ok (.node xi (.node mm ll xl false) xr true) :=
                fixUp_redRight (by simp [hll.isRed_eq]) (by simp [hxr.isRed_eq])
              refine ⟨.node xi (.node mm ll xl false) xr true, true, some li, ?_,
                Bal.black (Bal.red hll hxl) hxr, by simp, ?_, ?_⟩
              · simp only [deleteGas]
                rw [if_neg hki]
                simp [hrot, hlik', deleteMinN, hdm, hfix]
              · exact ordered_of_inorder_eq H (by simp) hordpre
              · refine delSpec_subst ll (.node i lr r false) hlik' hkli hino
                  (by simp) ?_
                rw [← rotateRight_inorder hrot]
                simp
            | true =>
              have hfix : fixUp (.node mm ll r₃ true) =
                  .ok (.node mm ll r₃ true) :=
                fixUp_noop (by simp [hBr₃.isRed_eq]) (by simp [hll.isRed_eq])
              refine ⟨.node mm ll r₃ true, true, some li, ?_,
                Bal.black hll hBr₃, by simp, hordpre, ?_⟩
              · simp only [deleteGas]
                rw [if_neg hki]
                simp [hrot, hlik', deleteMinN, hdm, hfix]
              · refine delSpec_subst ll (.node i lr r false) hlik' hkli hino
                  (by simp) ?_
                rw [← rotateRight_inorder hrot]
                simp
      | nil => simp at hS
    · -- the black-with-red-right frame out of moveRedRight
      obtain ⟨ri, rl, rr, rfl, hrl, hrr⟩ := Bal_red_shape hbr
      by_cases hik : less comp i k = true
      · -- key is to the right of the root

        have hlred : isRed l = false := by simp [hbl.isRed_eq]
        have hszr : (Node.node ri rl rr false).size ≤ fuel := by
          simp [Node.size] at hsz ⊢
          omega
        obtain ⟨r₃, c₃, res, hrec, hB₃, _, hord₃, hsp⟩ :=
          ih k (.node ri rl rr false) false m hszr
            (Or.inl ⟨Bal.red hrl hrr, Or.inl (by simp)⟩)
            (ordered_right hord)
            (okKey_right hOK)
        have hordpre : ordered comp (.node i l r₃ true) = true :=
          ordered_rebuildR hord (delSpec_sub hsp) hord₃
        cases c₃ with
        | false =>
          obtain ⟨xi, xl, xr, rfl, hxl, hxr⟩ := Bal_red_shape hB₃
          have hfix : fixUp (.node i l (.node xi xl xr false) true) =
              .ok (.node xi (.node i l xl false) xr true) :=
            fixUp_redRight hlred (by simp [hxr.isRed_eq])
          refine ⟨.node xi (.node i l xl false) xr true, true, res, ?_,
            Bal.black (Bal.red hbl hxl) hxr, by simp, ?_, ?_⟩
          · simp only [deleteGas]
            rw [if_neg (show ¬less comp k i = true by simp [hki])]
            simp [hlred, hik, hrec, hfix]
          · exact ordered_of_inorder_eq H (by simp) hordpre
          · exact delSpec_right H hord hik hsp (by simp) (by simp)
        | true =>
          have hfix : fixUp (.node i l r₃ true) = .ok (.node i l r₃ true) :=
            fixUp_noop (by simp [hB₃.isRed_eq]) (by simp [hlred])
          refine ⟨.node i l r₃ true, true, res, ?_, Bal.black hbl hB₃,
            by simp, hordpre, ?_⟩
          · simp only [deleteGas]
            rw [if_neg (show ¬less comp k i = true by simp [hki])]
            simp [hlred, hik, hrec, hfix]
          · exact delSpec_right H hord hik hsp (by simp) (by simp)
      · -- equivalent root item: substitute the successor

        have hik' : less comp i k = false := by simpa using hik
        have hlred : isRed l = false := by simp [hbl.isRed_eq]
        obtain ⟨r₃, c₃, mm, hdm, hBr₃, _, hordr₃, hino, hmin⟩ :=
          deleteMin_aux H (Node.node ri rl rr false).size (.node ri rl rr false)
            false m le_rfl (Bal.red hrl hrr) (ordered_right hord)
            (Or.inl (by simp))
        have hordpre : ordered comp (.node mm l r₃ true) = true :=
          ordered_substRoot H hord (by rw [hino]; simp) hmin
            (fun y hy => by rw [hino]; simp [hy]) hordr₃
        cases c₃ with
        | false =>
          obtain ⟨xi, xl, xr, rfl, hxl, hxr⟩ := Bal_red_shape hBr₃
          have hfix : fixUp (.node mm l (.node xi xl xr false) true) =
              .ok (.node xi (.node mm l xl false) xr true) :=
            fixUp_redRight hlred (by simp [hxr.isRed_eq])
          refine ⟨.node xi (.node mm l xl false) xr true, true, some i, ?_,
            Bal.black (Bal.red hbl hxl) hxr, by simp, ?_, ?_⟩
          · simp only [deleteGas]
            rw [if_neg (show ¬less comp k i = true by simp [hki])]
            simp [hlred, hik', deleteMinN, hdm, hfix]
          · exact ordered_of_inorder_eq H (by simp) hordpre
          · exact delSpec_subst l (.node ri rl rr false) hik' hki hino
              (by simp) (by simp)
        | true =>
          have hfix : fixUp (.node mm l r₃ true) = .ok (.node mm l r₃ true) :=
            fixUp_noop (by simp [hBr₃.isRed_eq]) (by simp [hlred])
          refine ⟨.node mm l r₃ true, true, some i, ?_, Bal.black hbl hBr₃,
            by simp, hordpre, ?_⟩
          · simp only [deleteGas]
            rw [if_neg (show ¬less comp k i = true by simp [hki])]
            simp [hlred, hik', deleteMinN, hdm, hfix]
          · exact delSpec_subst l (.node ri rl rr false) hik' hki hino
              (by simp) (by simp)


@[simp] theorem setBlackRoot_nil : setBlackRoot (.nil : Node α) = .nil := rfl

@[simp] theorem setBlackRoot_node {i : Item α} {l r : Node α} {b : Bool} :
    setBlackRoot (.node i l r b) = .node i l r true := rfl

@[simp] theorem setBlackRoot_inorder {h : Node α} :
    inorder (setBlackRoot h) = inorder h := by
  cases h <;> simp

/-- Top-level delete on a valid root: it succeeds, and after blackening the
root the tree is valid again (possibly one black level shorter), ordered,
and the listing lost exactly one equivalent item or nothing. -/
theorem deleteN_top {comp : α → α → Bool} (H : SWOp comp) {h : Node α}
    {n : Nat} (k : Item α) (HB : Bal h true n)
    (hord : ordered comp h = true)
    (hOK : okKey comp k h) :
    ∃ h' res n', deleteN comp h k = .ok (h', res) ∧
      Bal (setBlackRoot h') true n' ∧
      ordered comp (setBlackRoot h') = true ∧
      delSpec comp k res h' h := by
  cases h with
  | nil =>
    refine ⟨.nil, none, 0, ?_, Bal.nil, by simp, Or.inl ⟨rfl, rfl, by simp⟩⟩
    simp [deleteN, deleteGas]
  | node i l r b =>
    cases HB with
    | @black _ _ _ m cl hl hr =>
      cases cl with
      | false =>
        -- red left child: the recursion precondition already holds
        obtain ⟨h', c', res, hrun, hB', _, hord', hsp⟩ :=
          delete_aux H (Node.node i l r true).size k (.node i l r true) true
            (m + 1) le_rfl
            (Or.inl ⟨Bal.black hl hr, Or.inr (by simp [hl.isRed_eq])⟩)
            hord hOK
        obtain ⟨n', hBset⟩ := setBlackRoot_Bal hB'
        exact ⟨h', res, n', hrun, hBset,
          ordered_of_inorder_eq H (by simp) hord', hsp⟩
      | true =>
        by_cases hki : less comp k i = true
        · -- key below the root item
          cases l with
          | nil =>

            cases hl
            have hrn : r = .nil := Bal_true_zero hr
            subst hrn
            refine ⟨.node i .nil .nil true, none, 1, ?_,
              Bal.black Bal.nil Bal.nil, by simpa using hord,
              Or.inl ⟨rfl, rfl, ?_⟩⟩
            · simp [deleteN, deleteGas, Node.size, hki]
            · exact noneProp_left H hord hki (by simp)
          | node li ll lr lb =>
            cases hl with
            | @black _ _ _ m₂ cll hll hlr =>
              by_cases hcll : isRed ll = true
              · -- spare red below on the left

                have hst : mrlStep (.node i (.node li ll lr true) r true) =
                    .ok (.node i (.node li ll lr true) r true) := by
                  simp [mrlStep, hcll]
                obtain ⟨l₃, c₃, res, hrec, hB₃, himp, hord₃, hsp⟩ :=
                  delete_aux H (Node.size ll + Node.size lr + 1 + Node.size r) k
                    (.node li ll lr true) true (m₂ + 1)
                    (by
                      simp only [Node.size]
                      omega)
                    (Or.inl ⟨Bal.black hll hlr, Or.inr (by simpa using hcll)⟩)
                    (ordered_left hord)
                    (okKey_left hOK)
                have hc₃ : c₃ = true := himp rfl
                subst hc₃
                have hfix : fixUp (.node i l₃ r true) = .ok (.node i l₃ r true) :=
                  fixUp_noop (by simp [hr.isRed_eq]) (by simp [hB₃.isRed_eq])
                refine ⟨.node i l₃ r true, res, m₂ + 2, ?_,
                  Bal.black hB₃ hr, ?_, ?_⟩
                · simp only [deleteN, Node.size]
                  simp only [deleteGas]
                  rw [if_pos hki]
                  simp only [hst, hrec, hfix]
                · show ordered comp (.node i l₃ r true) = true
                  exact ordered_rebuildL hord (delSpec_sub hsp) hord₃
                · exact delSpec_left H hord hki hsp (by simp) (by simp)
              · have hcll' : isRed ll = false := by simpa using hcll
                cases cll with
                | false => simp [hll.isRed_eq] at hcll'
                | true =>
                cases hr with
                | @black ri rl rr _ crl hrl hrr =>
                  by_cases hcrl : isRed rl = true
                  · -- inner rotation case of moveRedLeft

                    cases crl with
                    | true => simp [hrl.isRed_eq] at hcrl
                    | false =>
                    obtain ⟨rli, rll, rlr, rfl, hrll, hrlr⟩ := Bal_red_shape hrl
                    have hst : mrlStep (.node i (.node li ll lr true)
                        (.node ri (.node rli rll rlr false) rr true) true) =
                        .ok (.node rli (.node i (.node li ll lr false) rll true)
                          (.node ri rlr rr true) true) := by
                      rw [mrlStep]
                      rw [if_pos (by simp [hcll'])]
                      exact moveRedLeft_rotate
                    have hord₂ : ordered comp (.node rli
                        (.node i (.node li ll lr false) rll true)
                        (.node ri rlr rr true) true) = true :=
                      ordered_of_inorder_eq H (mrlStep_inorder hst) hord
                    have hOK₂ : okKey comp k (Node.node rli
                          (.node i (.node li ll lr false) rll true)
                          (.node ri rlr rr true) true) :=
                        okKey_of_inorder_eq (mrlStep_inorder hst) hOK
                    have hkrli : less comp k rli = true := by
                      have h2 : allN (fun y => !less comp y i)
                          (Node.node ri (.node rli rll rlr false) rr true) =
                          true := by
                        rw [ordered_node] at hord
                        simp only [Bool.and_eq_true] at hord
                        exact hord.1.1.2
                      rw [allN_iff_mem] at h2
                      have h1 : less comp rli i = false := by
                        simpa using h2 rli (by simp)
                      exact less_of_less_of_notGT H hki h1
                    obtain ⟨l₃, c₃, res, hrec, hB₃, himp, hord₃, hsp⟩ :=
                      delete_aux H (Node.size ll + Node.size lr + 1 +
                          (Node.size rll + Node.size rlr + 1 + Node.size rr + 1)) k
                        (.node i (.node li ll lr false) rll true) true (m₂ + 1)
                        (by
                          simp only [Node.size]
                          omega)
                        (Or.inl ⟨Bal.black (Bal.red hll hlr) hrll,
                          Or.inr (by simp)⟩)
                        (ordered_left hord₂)
                        (okKey_left hOK₂)
                    have hc₃ : c₃ = true := himp rfl
                    subst hc₃
                    have hfix : fixUp (.node rli l₃ (.node ri rlr rr true) true) =
                        .ok (.node rli l₃ (.node ri rlr rr true) true) :=
                      fixUp_noop (by simp) (by simp [hB₃.isRed_eq])
                    refine ⟨.node rli l₃ (.node ri rlr rr true) true, res, m₂ + 2,
                      ?_, Bal.black hB₃ (Bal.black hrlr hrr), ?_, ?_⟩
                    · simp only [deleteN, Node.size]
                      simp only [deleteGas]
                      rw [if_pos hki]
                      simp only [hst, hrec, hfix]
                    · show ordered comp (.node rli l₃ (.node ri rlr rr true) true) = true
                      exact ordered_rebuildL hord₂ (delSpec_sub hsp) hord₃
                    · refine delSpec_left H hord₂ hkrli hsp (by simp) ?_
                      rw [← mrlStep_inorder hst]
                      simp
                  · -- plain flip case of moveRedLeft

                    have hcrl' : isRed rl = false := by simpa using hcrl
                    cases crl with
                    | false => simp [hrl.isRed_eq] at hcrl'
                    | true =>
                    have hst : mrlStep (.node i (.node li ll lr true)
                        (.node ri rl rr true) true) =
                        .ok (.node i (.node li ll lr false)
                          (.node ri rl rr false) false) := by
                      rw [mrlStep]
                      rw [if_pos (by simp [hcll'])]
                      exact moveRedLeft_plain hcrl'
                    have hord₂ : ordered comp (.node i (.node li ll lr false)
                        (.node ri rl rr false) false) = true :=
                      ordered_of_inorder_eq H (mrlStep_inorder hst) hord
                    have hOK₂ : okKey comp k (Node.node i (.node li ll lr false)
                          (.node ri rl rr false) false) :=
                        okKey_of_inorder_eq (mrlStep_inorder hst) hOK
                    obtain ⟨l₃, c₃, res, hrec, hB₃, _, hord₃, hsp⟩ :=
                      delete_aux H (Node.size ll + Node.size lr + 1 +
                          (Node.size rl + Node.size rr + 1)) k
                        (.node li ll lr false) false m₂
                        (by
                          simp only [Node.size]
                          omega)
                        (Or.inl ⟨Bal.red hll hlr, Or.inl (by simp)⟩)
                        (ordered_left hord₂)
                        (okKey_left hOK₂)
                    have hordpre : ordered comp
                        (.node i l₃ (.node ri rl rr false) false) = true :=
                      ordered_rebuildL hord₂ (delSpec_sub hsp) hord₃
                    cases c₃ with
                    | false =>
                      obtain ⟨xi, xl, xr, rfl, hxl, hxr⟩ := Bal_red_shape hB₃
                      have hfix : fixUp (.node i (.node xi xl xr false)
                          (.node ri rl rr false) false) =
                          .ok (.node i (.node xi xl xr true)
                            (.node ri rl rr true) true) := fixUp_bothRed
                      refine ⟨.node i (.node xi xl xr true)
                        (.node ri rl rr true) true, res, m₂ + 2, ?_,
                        Bal.black (Bal.black hxl hxr) (Bal.black hrl hrr),
                        ?_, ?_⟩
                      · simp only [deleteN, Node.size]
                        simp only [deleteGas]
                        rw [if_pos hki]
                        simp only [hst, hrec, hfix]
                      · exact ordered_of_inorder_eq H (by simp) hordpre
                      · refine delSpec_left H hord₂ hki hsp (by simp) ?_
                        rw [← mrlStep_inorder hst]
                        simp
                    | true =>
                      have hfix : fixUp (.node i l₃ (.node ri rl rr false) false) =
                          .ok (.node ri (.node i l₃ rl false) rr false) :=
                        fixUp_redRight (by simp [hB₃.isRed_eq])
                          (by simp [hrr.isRed_eq])
                      refine ⟨.node ri (.node i l₃ rl false) rr false, res,
                        m₂ + 1, ?_, Bal.black (Bal.red hB₃ hrl) hrr, ?_, ?_⟩
                      · simp only [deleteN, Node.size]
                        simp only [deleteGas]
                        rw [if_pos hki]
                        simp only [hst, hrec, hfix]
                      · exact ordered_of_inorder_eq H (by simp) hordpre
                      · refine delSpec_left H hord₂ hki hsp (by simp) ?_
                        rw [← mrlStep_inorder hst]
                        simp
        · have hki' : less comp k i = false := by simpa using hki
          cases r with
          | nil =>

            cases hr
            have hln : l = .nil := Bal_true_zero hl
            subst hln
            by_cases hik : less comp i k = true
            · refine ⟨.node i .nil .nil true, none, 1, ?_,
                Bal.black Bal.nil Bal.nil, by simpa using hord,
                Or.inl ⟨rfl, rfl, ?_⟩⟩
              · simp only [deleteN, Node.size]
                simp only [deleteGas]
                rw [if_neg hki]
                simp [deleteGas, hik, fixUp]
              · exact noneProp_right H hord hik (by simp)
            · have hik' : less comp i k = false := by simpa using hik
              refine ⟨.nil, some i, 0, ?_, Bal.nil, by simp, ?_⟩
              · simp only [deleteN, Node.size]
                simp only [deleteGas]
                rw [if_neg hki]
                simp [hik']
              · exact Or.inr ⟨i, [], [], rfl, by simp [hik', hki'], by simp,
                  by simp⟩
          | node ri rl rr rb =>
            cases hr with
            | @black _ _ _ m₂ crl hrl hrr =>
              cases hl with
              | @black li ll lr _ cll hll hlr =>
                by_cases hcrl : isRed rl = true
                · -- red grandchild on the right

                  by_cases hik : less comp i k = true
                  · obtain ⟨r₃, c₃, res, hrec, hB₃, himp, hord₃, hsp⟩ :=
                      delete_aux H (Node.size ll + Node.size lr + 1 +
                          (Node.size rl + Node.size rr + 1)) k
                        (.node ri rl rr true) true (m₂ + 1)
                        (by
                          simp only [Node.size]
                          omega)
                        (Or.inl ⟨Bal.black hrl hrr, Or.inr (by simpa using hcrl)⟩)
                        (ordered_right hord)
                        (okKey_right hOK)
                    have hc₃ : c₃ = true := himp rfl
                    subst hc₃
                    have hfix : fixUp (.node i (.node li ll lr true) r₃ true) =
                        .ok (.node i (.node li ll lr true) r₃ true) :=
                      fixUp_noop (by simp [hB₃.isRed_eq]) (by simp)
                    refine ⟨.node i (.node li ll lr true) r₃ true, res, m₂ + 2,
                      ?_, Bal.black (Bal.black hll hlr) hB₃, ?_, ?_⟩
                    · simp only [deleteN, Node.size]
                      simp only [deleteGas]
                      rw [if_neg hki]
                      simp [hik, hcrl, hrec, hfix]
                    · show ordered comp
                        (.node i (.node li ll lr true) r₃ true) = true
                      exact ordered_rebuildR hord (delSpec_sub hsp) hord₃
                    · exact delSpec_right H hord hik hsp (by simp) (by simp)
                  · have hik' : less comp i k = false := by simpa using hik
                    obtain ⟨r₃, c₃, mm, hdm, hBr₃, himp', hordr₃, hino, hmin⟩ :=
                      deleteMin_aux H (Node.node ri rl rr true).size
                        (.node ri rl rr true) true (m₂ + 1) le_rfl
                        (Bal.black hrl hrr) (ordered_right hord)
                        (Or.inr (by simpa using hcrl))
                    have hc₃ : c₃ = true := himp' rfl
                    subst hc₃
                    have hfix : fixUp (.node mm (.node li ll lr true) r₃ true) =
                        .ok (.node mm (.node li ll lr true) r₃ true) :=
                      fixUp_noop (by simp [hBr₃.isRed_eq]) (by simp)
                    refine ⟨.node mm (.node li ll lr true) r₃ true, some i,
                      m₂ + 2, ?_, Bal.black (Bal.black hll hlr) hBr₃, ?_, ?_⟩
                    · simp only [deleteN, Node.size]
                      simp only [deleteGas]
                      rw [if_neg hki]
                      simp [hik', hcrl, deleteMinN, hdm, hfix]
                    · show ordered comp
                        (.node mm (.node li ll lr true) r₃ true) = true
                      exact ordered_substRoot H hord (by rw [hino]; simp) hmin
                        (fun y hy => by rw [hino]; simp [hy]) hordr₃
                    · exact delSpec_subst (.node li ll lr true)
                        (.node ri rl rr true) hik' hki' hino (by simp) (by simp)
                · have hcrl' : isRed rl = false := by simpa using hcrl
                  cases crl with
                  | false => simp [hrl.isRed_eq] at hcrl'
                  | true =>
                  by_cases hcll : isRed ll = true
                  · -- inner rotation case of moveRedRight

                    cases cll with
                    | true => simp [hll.isRed_eq] at hcll
                    | false =>
                    obtain ⟨lli, lll, llr, rfl, hlll, hllr⟩ := Bal_red_shape hll
                    have hmrr : moveRedRight (.node i
                        (.node li (.node lli lll llr false) lr true)
                        (.node ri rl rr true) true) =
                        .ok (.node li (.node lli lll llr true)
                          (.node i lr (.node ri rl rr false) true) true) := by
                      simpa using moveRedRight_rotate
                    have hord₂ : ordered comp (.node li (.node lli lll llr true)
                        (.node i lr (.node ri rl rr false) true) true) = true :=
                      ordered_of_inorder_eq H (moveRedRight_inorder hmrr) hord
                    have hOK₂ : okKey comp k (Node.node li (.node lli lll llr true)
                          (.node i lr (.node ri rl rr false) true) true) :=
                        okKey_of_inorder_eq (moveRedRight_inorder hmrr) hOK
                    have hlik : less comp li k = true :=
                      caseB_key_right H hord hOK hki'
                    obtain ⟨r₃, c₃, res, hrec, hB₃, himp, hord₃, hsp⟩ :=
                      delete_aux H (Node.size lll + Node.size llr + 1 +
                          Node.size lr + 1 +
                          (Node.size rl + Node.size rr + 1)) k
                        (.node i lr (.node ri rl rr false) true) true (m₂ + 1)
                        (by
                          simp only [Node.size]
                          omega)
                        (Or.inr ⟨rfl, i, lr, .node ri rl rr false, m₂, rfl, rfl,
                          hlr, Bal.red hrl hrr, hki'⟩)
                        (ordered_right hord₂)
                        (okKey_right hOK₂)
                    have hc₃ : c₃ = true := himp rfl
                    subst hc₃
                    have hfix : fixUp (.node li (.node lli lll llr true) r₃ true) =
                        .ok (.node li (.node lli lll llr true) r₃ true) :=
                      fixUp_noop (by simp [hB₃.isRed_eq]) (by simp)
                    refine ⟨.node li (.node lli lll llr true) r₃ true, res,
                      m₂ + 2, ?_, Bal.black (Bal.black hlll hllr) hB₃, ?_, ?_⟩
                    · simp only [deleteN, Node.size]
                      simp only [deleteGas]
                      rw [if_neg hki]
                      simp [hcrl', hmrr, hlik, hrec, hfix]
                    · show ordered comp
                        (.node li (.node lli lll llr true) r₃ true) = true
                      exact ordered_rebuildR hord₂ (delSpec_sub hsp) hord₃
                    · refine delSpec_right H hord₂ hlik hsp (by simp) ?_
                      rw [← moveRedRight_inorder hmrr]
                      simp
                  · -- plain flip case of moveRedRight

                    have hcll' : isRed ll = false := by simpa using hcll
                    cases cll with
                    | false => simp [hll.isRed_eq] at hcll'
                    | true =>
                    have hmrr : moveRedRight (.node i (.node li ll lr true)
                        (.node ri rl rr true) true) =
                        .ok (.node i (.node li ll lr false)
                          (.node ri rl rr false) false) := by
                      simpa using moveRedRight_plain hcll'
                    have hord₂ : ordered comp (.node i (.node li ll lr false)
                        (.node ri rl rr false) false) = true :=
                      ordered_of_inorder_eq H (moveRedRight_inorder hmrr) hord
                    have hOK₂ : okKey comp k (Node.node i (.node li ll lr false)
                          (.node ri rl rr false) false) :=
                        okKey_of_inorder_eq (moveRedRight_inorder hmrr) hOK
                    by_cases hik : less comp i k = true
                    · obtain ⟨r₃, c₃, res, hrec, hB₃, _, hord₃, hsp⟩ :=
                        delete_aux H (Node.size ll + Node.size lr + 1 +
                            (Node.size rl + Node.size rr + 1)) k
                          (.node ri rl rr false) false m₂
                          (by
                            simp only [Node.size]
                            omega)
                          (Or.inl ⟨Bal.red hrl hrr, Or.inl (by simp)⟩)
                          (ordered_right hord₂)
                          (okKey_right hOK₂)
                      have hordpre : ordered comp
                          (.node i (.node li ll lr false) r₃ false) = true :=
                        ordered_rebuildR hord₂ (delSpec_sub hsp) hord₃
                      cases c₃ with
                      | false =>
                        obtain ⟨xi, xl, xr, rfl, hxl, hxr⟩ := Bal_red_shape hB₃
                        have hfix : fixUp (.node i (.node li ll lr false)
                            (.node xi xl xr false) false) =
                            .ok (.node i (.node li ll lr true)
                              (.node xi xl xr true) true) := fixUp_bothRed
                        refine ⟨.node i (.node li ll lr true)
                          (.node xi xl xr true) true, res, m₂ + 2, ?_,
                          Bal.black (Bal.black hll hlr) (Bal.black hxl hxr),
                          ?_, ?_⟩
                        · simp only [deleteN, Node.size]
                          simp only [deleteGas]
                          rw [if_neg hki]
                          simp [hcrl', hmrr, hik, hrec, hfix]
                        · show ordered comp (.node i (.node li ll lr true)
                            (.node xi xl xr true) true) = true
                          exact ordered_of_inorder_eq H (by simp) hordpre
                        · refine delSpec_right H hord₂ hik hsp (by simp) ?_
                          rw [← moveRedRight_inorder hmrr]
                          simp
                      | true =>
                        have hfix : fixUp (.node i (.node li ll lr false) r₃
                            false) = .ok (.node i (.node li ll lr false) r₃
                            false) :=
                          fixUp_noop (by simp [hB₃.isRed_eq]) (by simp [hcll'])
                        refine ⟨.node i (.node li ll lr false) r₃ false, res,
                          m₂ + 1, ?_, Bal.black (Bal.red hll hlr) hB₃, ?_, ?_⟩
                        · simp only [deleteN, Node.size]
                          simp only [deleteGas]
                          rw [if_neg hki]
                          simp [hcrl', hmrr, hik, hrec, hfix]
                        · show ordered comp
                            (.node i (.node li ll lr false) r₃ true) = true
                          exact ordered_rebuildR hord₂ (delSpec_sub hsp) hord₃
                        · refine delSpec_right H hord₂ hik hsp (by simp) ?_
                          rw [← moveRedRight_inorder hmrr]
                          simp
                    · have hik' : less comp i k = false := by simpa using hik
                      obtain ⟨r₃, c₃, mm, hdm, hBr₃, _, hordr₃, hino, hmin⟩ :=
                        deleteMin_aux H (Node.node ri rl rr false).size
                          (.node ri rl rr false) false m₂ le_rfl
                          (Bal.red hrl hrr) (ordered_right hord₂)
                          (Or.inl (by simp))
                      have hordpre : ordered comp
                          (.node mm (.node li ll lr false) r₃ false) = true :=
                        ordered_substRoot H hord₂ (by rw [hino]; simp) hmin
                          (fun y hy => by rw [hino]; simp [hy]) hordr₃
                      cases c₃ with
                      | false =>
                        obtain ⟨xi, xl, xr, rfl, hxl, hxr⟩ := Bal_red_shape hBr₃
                        have hfix : fixUp (.node mm (.node li ll lr false)
                            (.node xi xl xr false) false) =
                            .ok (.node mm (.node li ll lr true)
                              (.node xi xl xr true) true) := fixUp_bothRed
                        refine ⟨.node mm (.node li ll lr true)
                          (.node xi xl xr true) true, some i, m₂ + 2, ?_,
                          Bal.black (Bal.black hll hlr) (Bal.black hxl hxr),
                          ?_, ?_⟩
                        · simp only [deleteN, Node.size]
                          simp only [deleteGas]
                          rw [if_neg hki]
                          simp [hcrl', hmrr, hik', deleteMinN, hdm, hfix]
                        · show ordered comp (.node mm (.node li ll lr true)
                            (.node xi xl xr true) true) = true
                          exact ordered_of_inorder_eq H (by simp) hordpre
                        · refine delSpec_subst (.node li ll lr false)
                            (.node ri rl rr false) hik' hki' hino (by simp) ?_
                          rw [← moveRedRight_inorder hmrr]
                          simp
                      | true =>
                        have hfix : fixUp (.node mm (.node li ll lr false) r₃
                            false) = .ok (.node mm (.node li ll lr false) r₃
                            false) :=
                          fixUp_noop (by simp [hBr₃.isRed_eq]) (by simp [hcll'])
                        refine ⟨.node mm (.node li ll lr false) r₃ false, some i,
                          m₂ + 1, ?_, Bal.black (Bal.red hll hlr) hBr₃, ?_, ?_⟩
                        · simp only [deleteN, Node.size]
                          simp only [deleteGas]
                          rw [if_neg hki]
                          simp [hcrl', hmrr, hik', deleteMinN, hdm, hfix]
                        · show ordered comp
                            (.node mm (.node li ll lr false) r₃ true) = true
                          exact ordered_substRoot H hord₂ (by rw [hino]; simp)
                            hmin (fun y hy => by rw [hino]; simp [hy]) hordr₃
                        · refine delSpec_subst (.node li ll lr false)
                            (.node ri rl rr false) hik' hki' hino (by simp) ?_
                          rw [← moveRedRight_inorder hmrr]
                          simp


/-- The insertion fix-up is the identity when the right child is black and
there is no red-red chain on the left. -/
theorem walkUp_noop {i : Item α} {l r : Node α} {b : Bool}
    (hr : isRed r = false) (hll : (isRed l && isRed l.left) = false) :
    walkUpRot23 (.node i l r b) = .ok (.node i l r b) := by
  simp [walkUpRot23, hr, hll]

/-- The insertion fix-up rotates a lone red right child to the top. -/
theorem walkUp_redRight {i ri : Item α} {l rl rr : Node α} {b : Bool}
    (hl : isRed l = false) (hrr : isRed rr = false) :
    walkUpRot23 (.node i l (.node ri rl rr false) b) =
      .ok (.node ri (.node i l rl false) rr b) := by
  simp [walkUpRot23, rotateLeft, hl, hrr]

/-- The insertion fix-up resolves a left red-red chain by a right rotation
followed by a color flip. -/
theorem walkUp_leftLeft {i li lli : Item α} {lll llr lr r : Node α} {b : Bool}
    (hr : isRed r = false) :
    walkUpRot23 (.node i (.node li (.node lli lll llr false) lr false) r b) =
      .ok (.node li (.node lli lll llr true) (.node i lr r true) (!b)) := by
  simp [walkUpRot23, rotateRight, flip, hr]

/-- The insertion fix-up flips two red children whose own left children are
black. -/
theorem walkUp_flip {i li ri : Item α} {ll lr rl rr : Node α} {b : Bool}
    (hll : isRed ll = false) :
    walkUpRot23 (.node i (.node li ll lr false) (.node ri rl rr false) b) =
      .ok (.node i (.node li ll lr true) (.node ri rl rr true) (!b)) := by
  simp [walkUpRot23, flip, hll]

/-- Rebuild order after inserting a small item into the left subtree. -/
theorem ordered_insL {comp : α → α → Bool} (H : SWOp comp) {i x : Item α}
    {l l' r : Node α} {b b' : Bool}
    (ho : ordered comp (.node i l r b) = true)
    (hmem : ∀ y ∈ inorder l', y ∈ inorder l ∨ y = x)
    (hx : less comp x i = true)
    (hol : ordered comp l' = true) :
    ordered comp (.node i l' r b') = true := by
  rw [ordered_node] at ho ⊢
  simp only [Bool.and_eq_true] at ho ⊢
  refine ⟨⟨⟨?_, ho.1.1.2⟩, hol⟩, ho.2⟩
  rw [allN_iff_mem]
  intro y hy
  rcases hmem y hy with hy' | rfl
  · have := ho.1.1.1
    rw [allN_iff_mem] at this
    exact this y hy'
  · simp [less_asym H hx]

/-- Rebuild order after inserting a large item into the right subtree. -/
theorem ordered_insR {comp : α → α → Bool} (H : SWOp comp) {i x : Item α}
    {l r r' : Node α} {b b' : Bool}
    (ho : ordered comp (.node i l r b) = true)
    (hmem : ∀ y ∈ inorder r', y ∈ inorder r ∨ y = x)
    (hx : less comp i x = true)
    (hor : ordered comp r' = true) :
    ordered comp (.node i l r' b') = true := by
  rw [ordered_node] at ho ⊢
  simp only [Bool.and_eq_true] at ho ⊢
  refine ⟨⟨⟨ho.1.1.1, ?_⟩, ho.1.2⟩, hor⟩
  rw [allN_iff_mem]
  intro y hy
  rcases hmem y hy with hy' | rfl
  · have := ho.1.1.2
    rw [allN_iff_mem] at this
    exact this y hy'
  · simp [less_asym H hx]

/-- Rebuild order after swapping the node item for an equivalent one. -/
theorem ordered_swap {comp : α → α → Bool} (H : SWOp comp) {i x : Item α}
    {l r : Node α} {b b' : Bool}
    (ho : ordered comp (.node i l r b) = true)
    (hx1 : less comp x i = false) (hx2 : less comp i x = false) :
    ordered comp (.node x l r b') = true := by
  rw [ordered_node] at ho ⊢
  simp only [Bool.and_eq_true] at ho ⊢
  refine ⟨⟨⟨?_, ?_⟩, ho.1.2⟩, ho.2⟩
  · rw [allN_iff_mem]
    intro y hy
    have h1 := ho.1.1.1
    rw [allN_iff_mem] at h1
    have := h1 y hy
    simp only [Bool.not_eq_true'] at this ⊢
    exact less_negTrans H hx1 this
  · rw [allN_iff_mem]
    intro y hy
    have h1 := ho.1.1.2
    rw [allN_iff_mem] at h1
    have := h1 y hy
    simp only [Bool.not_eq_true'] at this ⊢
    exact less_negTrans H this hx2


/-- Insertion keeps the tree ordered and balanced: into a black node it
returns a valid tree of the same black-height (any root color), into a red
node it returns a red-rooted tree that is valid or carries the tolerated
red-left-child violation for the parent to fix. -/
theorem insert_aux {comp : α → α → Bool} (H : SWOp comp) :
    ∀ (h : Node α) (x : Item α) (c : Bool) (n : Nat), Bal h c n →
    ordered comp h = true →
    ∃ h' rep, replaceOrInsertN comp h x = .ok (h', rep) ∧
      ordered comp h' = true ∧
      (∀ y ∈ inorder h', y ∈ inorder h ∨ y = x) ∧
      (c = true → ∃ c', Bal h' c' n) ∧
      (c = false → Bal h' false n ∨ IRL h' n) := by
  intro h
  induction h with
  | nil =>
    intro x c n HB _
    cases HB
    refine ⟨newNode x, none, rfl, by simp [newNode], by simp [newNode], ?_, ?_⟩
    · exact fun _ => ⟨false, Bal.red Bal.nil Bal.nil⟩
    · intro hc
      cases hc
  | node i l r b ihl ihr =>
    intro x c n HB hord
    by_cases hx : less comp x i = true
    · -- insert into the left subtree
      have hBl : ∃ cl nl, Bal l cl nl := by
        cases HB with
        | red hl hr => exact ⟨_, _, hl⟩
        | black hl hr => exact ⟨_, _, hl⟩
      cases HB with
      | @red _ _ _ n hl hr =>
        obtain ⟨l', rep, hins, hol', hmem, hbk, _⟩ :=
          ihl x true n hl (ordered_left hord)
        have hmemfull : ∀ y ∈ inorder (Node.node i l' r false),
            y ∈ inorder (Node.node i l r false) ∨ y = x := by
          intro y hy
          simp only [inorder_node, List.mem_append, List.mem_cons] at hy ⊢
          rcases hy with hy | (rfl | hy)
          · rcases hmem y hy with h1 | h1 <;> tauto
          · tauto
          · tauto
        obtain ⟨c₁, hB₁⟩ := hbk rfl
        have hguard2 : (isRed l' && isRed l'.left) = false := by
          cases c₁ with
          | false =>
            obtain ⟨xi, xl, xr, hsh, hxl, _⟩ := Bal_red_shape hB₁
            subst hsh
            simp [hxl.isRed_eq]
          | true => simp [hB₁.isRed_eq]
        have hwu : walkUpRot23 (.node i l' r false) =
            .ok (.node i l' r false) :=
          walkUp_noop (by simp [hr.isRed_eq]) hguard2
        have hordpre : ordered comp (.node i l' r false) = true :=
          ordered_insL H hord hmem hx hol'
        refine ⟨.node i l' r false, rep, ?_, hordpre, hmemfull, ?_, ?_⟩
        · simp only [replaceOrInsertN, hx, if_true, hins, hwu]
        · intro hc
          cases hc
        · intro _
          cases c₁ with
          | false =>
            right
            obtain ⟨xi, xl, xr, hsh, hxl, hxr⟩ := Bal_red_shape hB₁
            subst hsh
            exact ⟨i, xi, xl, xr, r, rfl, Bal.red hxl hxr, hr⟩
          | true => exact Or.inl (Bal.red hB₁ hr)
      | @black _ _ _ m cl hl hr =>
        obtain ⟨l', rep, hins, hol', hmem, hbk, hrd⟩ :=
          ihl x cl m hl (ordered_left hord)
        have hmemfull : ∀ y ∈ inorder (Node.node i l' r true),
            y ∈ inorder (Node.node i l r true) ∨ y = x := by
          intro y hy
          simp only [inorder_node, List.mem_append, List.mem_cons] at hy ⊢
          rcases hy with hy | (rfl | hy)
          · rcases hmem y hy with h1 | h1 <;> tauto
          · tauto
          · tauto
        have hordpre1 : ∀ b', ordered comp (.node i l' r b') = true :=
          fun b' => ordered_insL H hord hmem hx hol'
        cases cl with
        | true =>
          obtain ⟨c₁, hB₁⟩ := hbk rfl
          have hguard2 : (isRed l' && isRed l'.left) = false := by
            cases c₁ with
            | false =>
              obtain ⟨xi, xl, xr, hsh, hxl, _⟩ := Bal_red_shape hB₁
              subst hsh
              simp [hxl.isRed_eq]
            | true => simp [hB₁.isRed_eq]
          have hwu : walkUpRot23 (.node i l' r true) =
              .ok (.node i l' r true) :=
            walkUp_noop (by simp [hr.isRed_eq]) hguard2
          refine ⟨.node i l' r true, rep, ?_, hordpre1 true, hmemfull, ?_, ?_⟩
          · simp only [replaceOrInsertN, hx, if_true, hins, hwu]
          · exact fun _ => ⟨true, Bal.black hB₁ hr⟩
          · intro hc
            cases hc
        | false =>
          rcases hrd rfl with hB₁ | hIRL
          · have hguard2 : (isRed l' && isRed l'.left) = false := by
              obtain ⟨xi, xl, xr, hsh, hxl, _⟩ := Bal_red_shape hB₁
              subst hsh
              simp [hxl.isRed_eq]
            have hwu : walkUpRot23 (.node i l' r true) =
                .ok (.node i l' r true) :=
              walkUp_noop (by simp [hr.isRed_eq]) hguard2
            refine ⟨.node i l' r true, rep, ?_, hordpre1 true, hmemfull, ?_,
              ?_⟩
            · simp only [replaceOrInsertN, hx, if_true, hins, hwu]
            · exact fun _ => ⟨true, Bal.black hB₁ hr⟩
            · intro hc
              cases hc
          · obtain ⟨li', lli, lll, llr, lr', hsh, hBin, hBlr⟩ := hIRL
            subst hsh
            have hpair : Bal lll true m ∧ Bal llr true m := by
              cases hBin with
              | red h1 h2 => exact ⟨h1, h2⟩
            obtain ⟨hlll, hllr⟩ := hpair
            have hwu : walkUpRot23 (.node i
                (.node li' (.node lli lll llr false) lr' false) r true) =
                .ok (.node li' (.node lli lll llr true)
                  (.node i lr' r true) false) := by
              simpa using walkUp_leftLeft (by simp [hr.isRed_eq])
            refine ⟨.node li' (.node lli lll llr true) (.node i lr' r true)
              false, rep, ?_, ?_, ?_, ?_, ?_⟩
            · simp only [replaceOrInsertN, hx, if_true, hins, hwu]
            · exact ordered_of_inorder_eq H (by simp) (hordpre1 true)
            · intro y hy
              exact hmemfull y (walkUpRot23_inorder hwu ▸ hy)
            · exact fun _ => ⟨false,
                Bal.red (Bal.black hlll hllr) (Bal.black hBlr hr)⟩
            · intro hc
              cases hc
    · by_cases hx2 : less comp i x = true
      · -- insert into the right subtree
        cases HB with
        | @red _ _ _ n hl hr =>
          obtain ⟨r', rep, hins, hor', hmem, hbk, _⟩ :=
            ihr x true n hr (ordered_right hord)
          have hmemfull : ∀ y ∈ inorder (Node.node i l r' false),
              y ∈ inorder (Node.node i l r false) ∨ y = x := by
            intro y hy
            simp only [inorder_node, List.mem_append, List.mem_cons] at hy ⊢
            rcases hy with hy | (rfl | hy)
            · tauto
            · tauto
            · rcases hmem y hy with h1 | h1 <;> tauto
          obtain ⟨c₂, hB₂⟩ := hbk rfl
          have hordpre : ∀ b', ordered comp (.node i l r' b') = true :=
            fun b' => ordered_insR H hord hmem hx2 hor'
          cases c₂ with
          | true =>
            have hwu : walkUpRot23 (.node i l r' false) =
                .ok (.node i l r' false) :=
              walkUp_noop (by simp [hB₂.isRed_eq]) (by simp [hl.isRed_eq])
            refine ⟨.node i l r' false, rep, ?_, hordpre false, hmemfull, ?_,
              ?_⟩
            · simp only [replaceOrInsertN, hx, hx2, if_true, if_false, hins,
                hwu]
              simp
            · intro hc
              cases hc
            · exact fun _ => Or.inl (Bal.red hl hB₂)
          | false =>
            obtain ⟨ri', rl', rr', hsh, hrl', hrr'⟩ := Bal_red_shape hB₂
            subst hsh
            have hwu : walkUpRot23 (.node i l (.node ri' rl' rr' false)
                false) = .ok (.node ri' (.node i l rl' false) rr' false) :=
              walkUp_redRight (by simp [hl.isRed_eq]) (by simp [hrr'.isRed_eq])
            refine ⟨.node ri' (.node i l rl' false) rr' false, rep, ?_, ?_,
              ?_, ?_, ?_⟩
            · simp only [replaceOrInsertN, hx, hx2, if_true, if_false, hins,
                hwu]
              simp
            · exact ordered_of_inorder_eq H (by simp) (hordpre false)
            · intro y hy
              exact hmemfull y (walkUpRot23_inorder hwu ▸ hy)
            · intro hc
              cases hc
            · exact fun _ => Or.inr
                ⟨ri', i, l, rl', rr', rfl, Bal.red hl hrl', hrr'⟩
        | @black _ _ _ m cl hl hr =>
          obtain ⟨r', rep, hins, hor', hmem, hbk, _⟩ :=
            ihr x true m hr (ordered_right hord)
          obtain ⟨c₂, hB₂⟩ := hbk rfl
          have hordpre : ∀ b', ordered comp (.node i l r' b') = true :=
            fun b' => ordered_insR H hord hmem hx2 hor'
          have hmemfull : ∀ y ∈ inorder (Node.node i l r' true),
              y ∈ inorder (Node.node i l r true) ∨ y = x := by
            intro y hy
            simp only [inorder_node, List.mem_append, List.mem_cons] at hy ⊢
            rcases hy with hy | (rfl | hy)
            · tauto
            · tauto
            · rcases hmem y hy with h1 | h1 <;> tauto
          cases c₂ with
          | true =>
            have hguard2 : (isRed l && isRed l.left) = false := by
              cases cl with
              | false =>
                obtain ⟨xi, xl, xr, hsh, hxl, _⟩ := Bal_red_shape hl
                subst hsh
                simp [hxl.isRed_eq]
              | true => simp [hl.isRed_eq]
            have hwu : walkUpRot23 (.node i l r' true) =
                .ok (.node i l r' true) :=
              walkUp_noop (by simp [hB₂.isRed_eq]) hguard2
            refine ⟨.node i l r' true, rep, ?_, hordpre true, hmemfull, ?_,
              ?_⟩
            · simp only [replaceOrInsertN, hx, hx2, if_true, if_false, hins,
                hwu]
              simp
            · exact fun _ => ⟨true, Bal.black hl hB₂⟩
            · intro hc
              cases hc
          | false =>
            obtain ⟨ri', rl', rr', hsh, hrl', hrr'⟩ := Bal_red_shape hB₂
            subst hsh
            cases cl with
            | true =>
              have hwu : walkUpRot23 (.node i l (.node ri' rl' rr' false)
                  true) = .ok (.node ri' (.node i l rl' false) rr' true) :=
                walkUp_redRight (by simp [hl.isRed_eq])
                  (by simp [hrr'.isRed_eq])
              refine ⟨.node ri' (.node i l rl' false) rr' true, rep, ?_, ?_,
                ?_, ?_, ?_⟩
              · simp only [replaceOrInsertN, hx, hx2, if_true, if_false, hins,
                  hwu]
                simp
              · exact ordered_of_inorder_eq H (by simp) (hordpre true)
              · intro y hy
                exact hmemfull y (walkUpRot23_inorder hwu ▸ hy)
              · exact fun _ => ⟨true, Bal.black (Bal.red hl hrl') hrr'⟩
              · intro hc
                cases hc
            | false =>
              obtain ⟨li', ll', lr', hsh, hll', hlr'⟩ := Bal_red_shape hl
              subst hsh
              have hwu : walkUpRot23 (.node i (.node li' ll' lr' false)
                  (.node ri' rl' rr' false) true) =
                  .ok (.node i (.node li' ll' lr' true)
                    (.node ri' rl' rr' true) false) := by
                simpa using walkUp_flip (by simp [hll'.isRed_eq])
              refine ⟨.node i (.node li' ll' lr' true)
                (.node ri' rl' rr' true) false, rep, ?_, ?_, ?_, ?_, ?_⟩
              · simp only [replaceOrInsertN, hx, hx2, if_true, if_false, hins,
                  hwu]
                simp
              · exact ordered_of_inorder_eq H (by simp) (hordpre true)
              · intro y hy
                exact hmemfull y (walkUpRot23_inorder hwu ▸ hy)
              · exact fun _ => ⟨false,
                  Bal.red (Bal.black hll' hlr') (Bal.black hrl' hrr')⟩
              · intro hc
                cases hc
      · -- equivalent item: swap in place
        have hx' : less comp x i = false := by simpa using hx
        have hx2' : less comp i x = false := by simpa using hx2
        cases HB with
        | @red _ _ _ n hl hr =>
          have hwu : walkUpRot23 (.node x l r false) =
              .ok (.node x l r false) :=
            walkUp_noop (by simp [hr.isRed_eq]) (by simp [hl.isRed_eq])
          refine ⟨.node x l r false, some i, ?_, ordered_swap H hord hx' hx2',
            ?_, ?_, ?_⟩
          · simp only [replaceOrInsertN, hx, hx2, if_false, hwu]
            simp
          · intro y hy
            simp only [inorder_node, List.mem_append, List.mem_cons] at hy ⊢
            rcases hy with hy | (rfl | hy) <;> tauto
          · intro hc
            cases hc
          · exact fun _ => Or.inl (Bal.red hl hr)
        | @black _ _ _ m cl hl hr =>
          have hguard2 : (isRed l && isRed l.left) = false := by
            cases cl with
            | false =>
              obtain ⟨xi, xl, xr, hsh, hxl, _⟩ := Bal_red_shape hl
              subst hsh
              simp [hxl.isRed_eq]
            | true => simp [hl.isRed_eq]
          have hwu : walkUpRot23 (.node x l r true) =
              .ok (.node x l r true) :=
            walkUp_noop (by simp [hr.isRed_eq]) hguard2
          refine ⟨.node x l r true, some i, ?_, ordered_swap H hord hx' hx2',
            ?_, ?_, ?_⟩
          · simp only [replaceOrInsertN, hx, hx2, if_false, hwu]
            simp
          · intro y hy
            simp only [inorder_node, List.mem_append, List.mem_cons] at hy ⊢
            rcases hy with hy | (rfl | hy) <;> tauto
          · exact fun _ => ⟨true, Bal.black hl hr⟩
          · intro hc
            cases hc


@[simp] theorem equivI_symm {comp : α → α → Bool} {x y : Item α} :
    equivI comp x y = equivI comp y x := by
  simp [equivI, Bool.and_comm]

/-- In a pairwise inequivalent listing, equivalent members are equal. -/
theorem pairwise_equiv_eq {comp : α → α → Bool} : ∀ {L : List (Item α)},
    List.Pairwise (fun a b => equivI comp a b = false) L →
    ∀ a ∈ L, ∀ b ∈ L, equivI comp a b = true → a = b := by
  intro L
  induction L with
  | nil => simp
  | cons hd tl ih =>
    intro hp a ha b hb he
    rw [List.pairwise_cons] at hp
    rcases List.mem_cons.mp ha with rfl | ha'
    · rcases List.mem_cons.mp hb with rfl | hb'
      · rfl
      · exact absurd he (by simp [hp.1 b hb'])
    · rcases List.mem_cons.mp hb with rfl | hb'
      · refine absurd he ?_
        have := hp.1 a ha'
        simp only [equivI_symm] at this
        simp [this]
      · exact ih hp.2 a ha' b hb' he

/-- Dropping the middle element keeps a listing pairwise. -/
theorem pairwise_remove_mid {β : Type} {R : β → β → Prop} {L₁ L₂ : List β}
    {x : β} (hp : List.Pairwise R (L₁ ++ x :: L₂)) :
    List.Pairwise R (L₁ ++ L₂) := by
  rw [List.pairwise_append] at hp ⊢
  rw [List.pairwise_cons] at hp
  exact ⟨hp.1, hp.2.1.2, fun a ha b hb => hp.2.2 a ha b (by simp [hb])⟩

theorem inorder_eq_nil {h : Node α} (he : inorder h = []) : h = .nil := by
  cases h with
  | nil => rfl
  | node i l r b => simp at he

/-- Insert a list of elements one by one, stopping at the first error. -/
def insertAllE (t : LLRB α) : List α → Except String (LLRB α)
  | [] => .ok t
  | x :: xs =>
    match t.ReplaceOrInsert (some (.item x)) with
    | .error e => .error e
    | .ok (t', _) => insertAllE t' xs

/-- Delete a list of elements one by one, stopping at the first error. -/
def deleteAllE (t : LLRB α) : List α → Except String (LLRB α)
  | [] => .ok t
  | x :: xs =>
    match t.Delete (.item x) with
    | .error e => .error e
    | .ok (t', _) => deleteAllE t' xs


/-- Inserting a batch of keys, all inequivalent to each other and to the
stored items, succeeds and adds exactly those items. -/
theorem insertAll_good {comp : α → α → Bool} (H : SWOp comp) :
    ∀ (L : List α) (t : LLRB α) (M : List (Item α)),
    t.comp = comp → (∃ n, Bal t.root true n) →
    ordered comp t.root = true →
    (inorder t.root).Perm M → t.count = (M.length : Int) →
    List.Pairwise (fun a b => equivI comp a b = false)
      (M ++ L.map Item.item) →
    ∃ t', insertAllE t L = .ok t' ∧ t'.comp = comp ∧
      (∃ n, Bal t'.root true n) ∧ ordered comp t'.root = true ∧
      (inorder t'.root).Perm (M ++ L.map Item.item) ∧
      t'.count = ((M ++ L.map Item.item).length : Int) := by
  intro L
  induction L with
  | nil =>
    intro t M hcomp hbal hord hperm hcount hp
    exact ⟨t, rfl, hcomp, hbal, hord, by simpa using hperm,
      by simpa using hcount⟩
  | cons x xs ih =>
    intro t M hcomp hbal hord hperm hcount hp
    obtain ⟨n, HB⟩ := hbal
    obtain ⟨h', rep, heq, hordh', hmem, hbk, _⟩ :=
      insert_aux H t.root (.item x) true n HB hord
    obtain ⟨i', l', r', b', rep₂, heq₂, hch⟩ :=
      replaceOrInsertN_char H t.root (.item x) hord
    rw [heq] at heq₂
    rw [Except.ok.injEq, Prod.mk.injEq] at heq₂
    obtain ⟨rfl, rfl⟩ := heq₂
    rcases hch with ⟨hrep, habs, L₁, L₂, hold, hnew⟩ |
      ⟨d, L₁, L₂, hrep, hequiv, hold, hnew⟩
    · subst hrep
      have hrun : t.ReplaceOrInsert (some (.item x)) =
          .ok (⟨t.count + 1, .node i' l' r' true, t.comp⟩, none) := by
        simp only [LLRB.ReplaceOrInsert]
        rw [hcomp, heq]
      obtain ⟨c', hB'⟩ := hbk rfl
      obtain ⟨n₂, hB₂⟩ := setBlackRoot_Bal hB'
      have hpermnew : (inorder (Node.node i' l' r' true)).Perm
          (M ++ [Item.item x]) := by
        have e1 : inorder (Node.node i' l' r' true) =
            L₁ ++ Item.item x :: L₂ := by
          rw [← hnew]
          simp
        rw [e1]
        refine List.perm_middle.trans ?_
        rw [← hold]
        exact (hperm.cons (Item.item x)).trans
          (List.perm_append_singleton (Item.item x) M).symm
      refine ih ⟨t.count + 1, .node i' l' r' true, t.comp⟩ (M ++ [.item x])
          hcomp ⟨n₂, hB₂⟩ (ordered_of_inorder_eq H (by simp) hordh')
          hpermnew (by rw [hcount]; push_cast [List.length_append, List.length_cons, List.length_nil]; ring)
          (by simpa using hp) |>.imp ?_
      intro t' ht'
      refine ⟨?_, ht'.2.1, ht'.2.2.1, ht'.2.2.2.1, ?_, ?_⟩
      · simp only [insertAllE, List.map_cons]
        rw [hrun]
        exact ht'.1
      · refine ht'.2.2.2.2.1.trans ?_
        simp
      · rw [ht'.2.2.2.2.2]
        simp
    · exfalso
      have hdmem : d ∈ inorder t.root := by
        rw [hold]
        simp
      have hdM : d ∈ M := hperm.mem_iff.mp hdmem
      rw [List.pairwise_append] at hp
      have := hp.2.2 d hdM (Item.item x) (by simp)
      rw [this] at hequiv
      cases hequiv

/-- Deleting every stored key, each present exactly once, empties the
tree. -/
theorem deleteAll_good {comp : α → α → Bool} (H : SWOp comp) :
    ∀ (P : List α) (t : LLRB α),
    t.comp = comp → (∃ n, Bal t.root true n) →
    ordered comp t.root = true →
    (inorder t.root).Perm (P.map Item.item) →
    t.count = ((P.map Item.item).length : Int) →
    List.Pairwise (fun a b => equivI comp a b = false) (inorder t.root) →
    ∃ t', deleteAllE t P = .ok t' ∧ t'.count = 0 ∧ t'.root = .nil := by
  intro P
  induction P with
  | nil =>
    intro t _ _ _ hperm hcount _
    have hnil : inorder t.root = [] := hperm.eq_nil
    exact ⟨t, rfl, by simpa using hcount, inorder_eq_nil hnil⟩
  | cons x xs ih =>
    intro t hcomp hbal hord hperm hcount hdkt
    obtain ⟨n, HB⟩ := hbal
    obtain ⟨root', res, n', hrun, hBset, hordset, hsp⟩ :=
      deleteN_top H (.item x) HB hord (Or.inl hdkt)
    have hxmem : Item.item x ∈ inorder t.root := by
      rw [hperm.mem_iff]
      simp
    rcases hsp with ⟨hres, _, habs⟩ | ⟨d, L₁, L₂, hres, hequiv, hold, hnew⟩
    · exfalso
      have := habs (Item.item x) hxmem
      rw [equivI_eq_false] at this
      rcases this with h1 | h1 <;>
        simp [less_irrefl H] at h1
    · subst hres
      have hdx : d = Item.item x := by
        refine pairwise_equiv_eq hdkt d ?_ (Item.item x) hxmem hequiv
        rw [hold]
        simp
      subst hdx
      have hrunT : t.Delete (Item.item x) =
          .ok (⟨t.count - 1, setBlackRoot root', t.comp⟩, some (.item x)) := by
        simp only [LLRB.Delete]
        rw [hcomp, hrun]
      have hpermnew : (inorder (setBlackRoot root')).Perm
          (xs.map Item.item) := by
        have e1 : inorder (setBlackRoot root') = L₁ ++ L₂ := by
          rw [setBlackRoot_inorder, hnew]
        rw [e1]
        have h2 : (Item.item x :: (L₁ ++ L₂)).Perm
            (Item.item x :: xs.map Item.item) := by
          refine (List.perm_middle.symm.trans ?_)
          rw [← hold]
          simpa using hperm
        exact (List.Perm.cons_inv h2)
      have hdknew : List.Pairwise (fun a b => equivI comp a b = false)
          (inorder (setBlackRoot root')) := by
        rw [setBlackRoot_inorder, hnew]
        rw [hold] at hdkt
        exact pairwise_remove_mid hdkt
      refine (ih ⟨t.count - 1, setBlackRoot root', t.comp⟩ hcomp ⟨n', hBset⟩
        hordset hpermnew ?_ hdknew).imp ?_
      · show t.count - 1 = ((xs.map Item.item).length : Int)
        rw [hcount]
        push_cast [List.length_map, List.length_cons]
        ring
      · intro t' ht'
        refine ⟨?_, ht'.2.1, ht'.2.2⟩
        simp only [deleteAllE]
        rw [hrunT]
        exact ht'.1


/-- C8: inserting a finite list of items with pairwise inequivalent keys
into a fresh tree via ReplaceOrInsert and then deleting every member, in
any order, returns the tree to empty: the reported length is 0 and there
is no root node. -/
theorem C8_round_trip (comp : α → α → Bool) (H : SWOp comp) (L P : List α)
    (hdk : List.Pairwise
      (fun a b => equivI comp (.item a) (.item b) = false) L)
    (hperm : L.Perm P) :
    ∃ t₁ t₂, insertAllE (New comp) L = .ok t₁ ∧ deleteAllE t₁ P = .ok t₂ ∧
      t₂.Len = 0 ∧ t₂.Root = .nil := by
  obtain ⟨t₁, h1, hcomp, hbal, hord, hpermM, hcount⟩ :=
    insertAll_good H L (New comp) [] rfl ⟨0, Bal.nil⟩ (by simp [New])
      (by simp [New]) (by simp [New])
      (by
        rw [List.nil_append]
        exact List.pairwise_map.mpr hdk)
  have hpermM' : (inorder t₁.root).Perm (L.map Item.item) := by
    simpa using hpermM
  obtain ⟨t₂, h2, hc0, hr0⟩ :=
    deleteAll_good H P t₁ hcomp hbal hord
      (hpermM'.trans (hperm.map Item.item))
      (by
        rw [hcount]
        simp [hperm.length_eq])
      ((List.Perm.pairwise_iff
        (fun hab => by rw [equivI_symm]; exact hab) hpermM').mpr
        (List.pairwise_map.mpr hdk))
  exact ⟨t₁, t₂, h1, h2, hc0, hr0⟩

/-- Closed witness for C8: inserting 1, 2, 3 and deleting 2, 3, 1 empties
the tree. -/
theorem C8_round_trip_witness :
    ∃ t₁ t₂, insertAllE (New intLess) [1, 2, 3] = .ok t₁ ∧
      deleteAllE t₁ [2, 3, 1] = .ok t₂ ∧ t₂.Len = 0 ∧ t₂.Root = .nil :=
  C8_round_trip intLess SWOp_intLess [1, 2, 3] [2, 3, 1] (by decide)
    (by decide)

/-- C4 counterexample: a valid 4-node tree in which key 1 is absent;
`Delete 1` returns "nothing deleted" and the same count, but the returned
node graph is restructured (new root item 15, recolored leaf 5) rather
than left unchanged. -/
theorem C4_counterexample :
    invariants intLess (.node (.item 10) (.node (.item 5) .nil .nil true)
      (.node (.item 20) (.node (.item 15) .nil .nil false) .nil true)
      true) = true ∧
    (∀ y ∈ inorder (Node.node (Item.item 10)
      (.node (.item 5) .nil .nil true)
      (.node (.item 20) (.node (.item 15) .nil .nil false) .nil true)
      (true : Bool)), equivI intLess y (.item 1) = false) ∧
    LLRB.Delete ⟨3, .node (.item 10) (.node (.item 5) .nil .nil true)
        (.node (.item 20) (.node (.item 15) .nil .nil false) .nil true) true,
        intLess⟩ (.item 1) =
      .ok (⟨3, .node (.item 15)
        (.node (.item 10) (.node (.item 5) .nil .nil false) .nil true)
        (.node (.item 20) .nil .nil true) true, intLess⟩, none) ∧
    (Node.node (Item.item 15)
        (.node (.item 10) (.node (.item 5) .nil .nil false) .nil true)
        (.node (.item 20) .nil .nil true) true : Node Int) ≠
      .node (.item 10) (.node (.item 5) .nil .nil true)
        (.node (.item 20) (.node (.item 15) .nil .nil false) .nil true)
        true :=
  ⟨by decide, by decide, rfl, by decide⟩

/-- C4 (amended): on any tree satisfying the balance and order invariants,
deleting an absent key (one no stored item is equivalent to) succeeds,
reports nothing deleted and preserves both the count and the stored item
sequence exactly; the node structure may still be rebuilt. -/
theorem C4_amended_delete_absent (t : LLRB α) (k : Item α) (H : SWOp t.comp)
    (n : Nat) (HB : Bal t.root true n)
    (hord : ordered t.comp t.root = true)
    (habs : ∀ y ∈ inorder t.root, equivI t.comp y k = false) :
    ∃ t', t.Delete k = .ok (t', none) ∧ t'.count = t.count ∧
      t'.comp = t.comp ∧ inorder t'.root = inorder t.root := by
  obtain ⟨root', res, n', hrun, hBset, hordset, hsp⟩ :=
    deleteN_top H k HB hord (Or.inr habs)
  rcases hsp with ⟨hres, hino, _⟩ | ⟨d, L₁, L₂, hres, hequiv, hold, hnew⟩
  · subst hres
    refine ⟨⟨t.count, setBlackRoot root', t.comp⟩, ?_, rfl, rfl, ?_⟩
    · simp only [LLRB.Delete]
      rw [hrun]
    · rw [setBlackRoot_inorder, hino]
  · exfalso
    have hdmem : d ∈ inorder t.root := by
      rw [hold]
      simp
    have hfalse := habs d hdmem
    rw [hfalse] at hequiv
    cases hequiv

/-- Closed witness for the amended C4 on a concrete valid tree. -/
theorem C4_amended_witness :
    ∃ t', LLRB.Delete ⟨3, .node (.item 10) (.node (.item 5) .nil .nil true)
        (.node (.item 20) (.node (.item 15) .nil .nil false) .nil true) true,
        intLess⟩ (.item 1) = .ok (t', none) ∧
      t'.count = 3 ∧ t'.comp = intLess ∧
      inorder t'.root = inorder (Node.node (Item.item 10)
        (.node (.item 5) .nil .nil true)
        (.node (.item 20) (.node (.item 15) .nil .nil false) .nil true)
        (true : Bool)) :=
  C4_amended_delete_absent ⟨3, .node (.item 10)
      (.node (.item 5) .nil .nil true)
      (.node (.item 20) (.node (.item 15) .nil .nil false) .nil true) true,
      intLess⟩ (.item 1) SWOp_intLess 2
    (Bal.black (Bal.black Bal.nil Bal.nil)
      (Bal.black (Bal.red Bal.nil Bal.nil) Bal.nil))
    (by decide) (by decide)

end LLRBTree
